import Mathlib

/-!
Verification of the stereo graph library (automol.graph._stereo).

The molecular-graph accessor layer (automol.graph._graph, automol.graph._res,
automol.dict_) is external to the stereo module; its operations are modelled
here from their interface contracts.  The stereo module itself
(stereo_priority_vector, stereogenic_atom_keys, stereogenic_bond_keys,
stereomers, substereomers, stereo_sorted_atom_neighbor_keys) is embedded
function by function.

Python assertion failures and dictionary-lookup failures are modelled by
Option: a result of none means the Python code raises.  The recursive
priority-vector traversal and the stereomer fixed-point loop are written with
explicit fuel; theorems show the fuel chosen suffices.
-/

/-- Attributes of one atom: element symbol, implicit-hydrogen count, and
stereo parity (none when unset). -/
structure AtomAttrs where
  sym : String
  hyd : Nat
  par : Option Bool
deriving DecidableEq, Repr

/-- Attributes of one bond: bond order and stereo parity (none when unset). -/
structure BondAttrs where
  ord : Nat
  par : Option Bool
deriving DecidableEq, Repr

/-- Bond keys are unordered pairs of atom keys, represented canonically with
the smaller key first (the Python code uses a two-element frozenset). -/
abbrev BKey := Nat × Nat

/-- Canonical form of the unordered pair of two atom keys. -/
def bkey (a b : Nat) : BKey := if a ≤ b then (a, b) else (b, a)

/-- Molecular graph: an association list from atom key to atom attributes and
an association list from canonical bond key to bond attributes.  Python dicts
compare by content; all graphs manipulated by the stereo module are derived
from a common starting graph by attribute-preserving maps, so list equality of
this representation coincides with Python dict equality on those graphs. -/
structure MGraph where
  atms : List (Nat × AtomAttrs)
  bnds : List (BKey × BondAttrs)
deriving DecidableEq, Repr

/-- Monadic map over Option: Python list comprehension whose body may raise. -/
def omap (f : α → Option β) : List α → Option (List β)
  | [] => some []
  | a :: l => do
    let b ← f a
    let bs ← omap f l
    some (b :: bs)

/-- Monadic filter over Option: Python filter whose predicate may raise. -/
def ofilter (f : α → Option Bool) : List α → Option (List α)
  | [] => some []
  | a :: l => do
    let b ← f a
    let rest ← ofilter f l
    some (if b then a :: rest else rest)

/-- Monadic concat-map over Option, used for the stereomer expansion passes. -/
def oflat (f : α → Option (List α)) : List α → Option (List α)
  | [] => some []
  | a :: l => do
    let bs ← f a
    let rest ← oflat f l
    some (bs ++ rest)

/-- Modelled from the spec: atom key to attributes mapping view (atoms). -/
def atomsOf (g : MGraph) : List (Nat × AtomAttrs) := g.atms

/-- Modelled from the spec: bond key to attributes mapping view (bonds). -/
def bondsOf (g : MGraph) : List (BKey × BondAttrs) := g.bnds

/-- Keys of all atoms of the graph. -/
def atomKeys (g : MGraph) : List Nat := g.atms.map Prod.fst

/-- Keys of all bonds of the graph. -/
def bondKeys (g : MGraph) : List BKey := g.bnds.map Prod.fst

/-- Attributes of the atom with the given key, when present. -/
def atomAttr (g : MGraph) (k : Nat) : Option AtomAttrs := g.atms.lookup k

/-- Attributes of the bond with the given key, when present. -/
def bondAttr (g : MGraph) (bk : BKey) : Option BondAttrs := g.bnds.lookup bk

/-- Stereo parity of the atom with the given key, when the atom is present. -/
def atomParity (g : MGraph) (k : Nat) : Option (Option Bool) :=
  (atomAttr g k).map AtomAttrs.par

/-- Stereo parity of the bond with the given key, when the bond is present. -/
def bondParity (g : MGraph) (bk : BKey) : Option (Option Bool) :=
  (bondAttr g bk).map BondAttrs.par

/-- Modelled from the spec: atom_stereo_parities, the mapping from atom key to
stereo parity. -/
def atom_stereo_parities (g : MGraph) : List (Nat × Option Bool) :=
  g.atms.map (fun p => (p.1, p.2.par))

/-- Modelled from the spec: bond_stereo_parities, the mapping from bond key to
stereo parity. -/
def bond_stereo_parities (g : MGraph) : List (BKey × Option Bool) :=
  g.bnds.map (fun p => (p.1, p.2.par))

/-- Keys to atom stereo-centers: atoms whose parity is assigned (True or
False), i.e. not the unset sentinel (atom_stereo_keys in the source, built
with dict_.keys_by_value). -/
def atom_stereo_keys (g : MGraph) : List Nat :=
  (g.atms.filter (fun p => p.2.par ≠ none)).map Prod.fst

/-- Keys to bond stereo-centers: bonds whose parity is assigned. -/
def bond_stereo_keys (g : MGraph) : List BKey :=
  (g.bnds.filter (fun p => p.2.par ≠ none)).map Prod.fst

/-- Does this graph have stereo of any kind (has_stereo in the source)? -/
def has_stereo (g : MGraph) : Bool :=
  !(atom_stereo_keys g).isEmpty || !(bond_stereo_keys g).isEmpty

/-- Modelled from the spec: set_atom_stereo_parities overlays the given
parity assignments, returning a new graph. -/
def set_atom_stereo_parities (g : MGraph) (d : List (Nat × Bool)) : MGraph :=
  { g with atms := g.atms.map (fun p =>
      match d.lookup p.1 with
      | some b => (p.1, { p.2 with par := some b })
      | none => p) }

/-- Modelled from the spec: set_bond_stereo_parities overlays the given
parity assignments, returning a new graph. -/
def set_bond_stereo_parities (g : MGraph) (d : List (BKey × Bool)) : MGraph :=
  { g with bnds := g.bnds.map (fun p =>
      match d.lookup p.1 with
      | some b => (p.1, { p.2 with par := some b })
      | none => p) }

/-- Modelled from the spec: without_bond_orders returns the graph with all
bond-order information discarded (every order set to single). -/
def without_bond_orders (g : MGraph) : MGraph :=
  { g with bnds := g.bnds.map (fun p => (p.1, { p.2 with ord := 1 })) }

/-- Modelled from the spec: without_stereo_parities returns the graph with all
atom and bond stereo parities cleared. -/
def without_stereo_parities (g : MGraph) : MGraph :=
  { atms := g.atms.map (fun p => (p.1, { p.2 with par := none })),
    bnds := g.bnds.map (fun p => (p.1, { p.2 with par := none })) }

/-- Modelled from the spec: explicit_hydrogen_keys, the keys representing
hydrogens made explicit in the graph (element symbol H). -/
def explicit_hydrogen_keys (g : MGraph) : List Nat :=
  (g.atms.filter (fun p => p.2.sym = "H")).map Prod.fst

/-- Modelled from the spec: backbone_keys, the heavy-atom skeleton keys (the
complement of the explicit-hydrogen keys). -/
def backbone_keys (g : MGraph) : List Nat :=
  (g.atms.filter (fun p => p.2.sym ≠ "H")).map Prod.fst

/-- Neighbor keys of one atom, read off the bond list and sorted ascending
(Python iterates small-integer sets in ascending order). -/
def atom_neighbor_keys (g : MGraph) (k : Nat) : List Nat :=
  List.insertionSort (fun a b => a ≤ b)
    (g.bnds.filterMap (fun p =>
      if p.1.1 = k then some p.1.2 else if p.1.2 = k then some p.1.1 else none))

/-- Modelled from the spec: atom_bond_valences, the total bond valence of an
atom: the sum of the orders of its incident bonds plus its implicit-hydrogen
count. -/
def atom_bond_valences (g : MGraph) (k : Nat) : Nat :=
  ((g.bnds.filter (fun p => p.1.1 = k ∨ p.1.2 = k)).map (fun p => p.2.ord)).sum
    + ((atomAttr g k).map AtomAttrs.hyd).getD 0

/-- Largest number mentioned as an atom key or bond endpoint, used to
allocate fresh keys for explicit hydrogens. -/
def maxKey (g : MGraph) : Nat :=
  ((g.atms.map Prod.fst) ++ (g.bnds.map (fun p => max p.1.1 p.1.2))).foldr max 0

/-- Helper for explicitG: walks the atom list allocating a block of fresh
hydrogen keys (starting at the given counter) for each atom with a positive
implicit-hydrogen count, and returns the new hydrogen atoms and bonds. -/
def addHyd : Nat → List (Nat × AtomAttrs) →
    List (Nat × AtomAttrs) × List (BKey × BondAttrs)
  | _, [] => ([], [])
  | c, p :: rest =>
    let hs := (List.range p.2.hyd).map
      (fun i => (c + i, AtomAttrs.mk "H" 0 none))
    let bs := (List.range p.2.hyd).map
      (fun i => ((p.1, c + i), BondAttrs.mk 1 none))
    let r := addHyd (c + p.2.hyd) rest
    (hs ++ r.1, bs ++ r.2)

/-- Modelled from the spec: explicit converts implicit hydrogens into
explicit hydrogen atoms, allocating fresh keys above every existing key and
bonding each new hydrogen to its heavy atom with a single bond. -/
def explicitG (g : MGraph) : MGraph :=
  let r := addHyd (maxKey g + 1) g.atms
  { atms := g.atms.map (fun p => (p.1, { p.2 with hyd := 0 })) ++ r.1,
    bnds := g.bnds ++ r.2 }

/-- Does the atom with this key carry the hydrogen element symbol? -/
def isHyd (g : MGraph) (k : Nat) : Bool :=
  match atomAttr g k with
  | some a => a.sym = "H"
  | none => false

/-- Modelled from the spec: implicit folds each explicit hydrogen into the
implicit-hydrogen count of the atom it is bonded to, removing the hydrogen
atoms and their bonds. -/
def implicitG (g : MGraph) : MGraph :=
  { atms := g.atms.filterMap (fun p =>
      if p.2.sym = "H" then none
      else some (p.1, { p.2 with hyd := p.2.hyd +
        (g.bnds.countP (fun q =>
          (q.1.1 = p.1 ∧ isHyd g q.1.2) ∨ (q.1.2 = p.1 ∧ isHyd g q.1.1))) })),
    bnds := g.bnds.filter (fun q => ¬ isHyd g q.1.1 ∧ ¬ isHyd g q.1.2) }

/-- Well-formedness of a graph: atom keys are distinct, bond keys are
distinct, and every bond key is a canonically ordered pair of two existing
atom keys. -/
def WF (g : MGraph) : Prop :=
  (atomKeys g).Nodup ∧ (bondKeys g).Nodup ∧
    ∀ p ∈ g.bnds, p.1.1 < p.1.2 ∧ p.1.1 ∈ atomKeys g ∧ p.1.2 ∈ atomKeys g

instance (g : MGraph) : Decidable (WF g) := by
  unfold WF; infer_instance

/-- Priority vector: the sortable nested-tuple representation of one branch.
The empty constructor is the empty tuple returned for explicit hydrogens; cut
is the single-element tuple (bond value only) returned when a cycle is
detected; node is the tuple of bond value, atom value and the sub-vectors of
the remaining branches.  Unset parities inside the attribute values are kept
as none and treated as negative infinity by the comparator, mirroring
_replace_nones_with_negative_infinity. -/
inductive PV where
  | empty : PV
  | cut : BondAttrs → PV
  | node : BondAttrs → AtomAttrs → List PV → PV
deriving Repr

mutual

/-- Boolean structural equality of priority vectors. -/
def pvBeq : PV → PV → Bool
  | PV.empty, PV.empty => true
  | PV.cut b, PV.cut b2 => decide (b = b2)
  | PV.node b a s, PV.node b2 a2 s2 =>
      decide (b = b2) && decide (a = a2) && pvListBeq s s2
  | _, _ => false

/-- Boolean structural equality of lists of priority vectors. -/
def pvListBeq : List PV → List PV → Bool
  | [], [] => true
  | x :: xs, y :: ys => pvBeq x y && pvListBeq xs ys
  | _, _ => false

end

mutual

theorem pvBeq_iff : ∀ a b : PV, pvBeq a b = true ↔ a = b
  | PV.empty, PV.empty => by simp [pvBeq]
  | PV.empty, PV.cut _ => by simp [pvBeq]
  | PV.empty, PV.node _ _ _ => by simp [pvBeq]
  | PV.cut _, PV.empty => by simp [pvBeq]
  | PV.cut b, PV.cut b2 => by simp [pvBeq]
  | PV.cut _, PV.node _ _ _ => by simp [pvBeq]
  | PV.node _ _ _, PV.empty => by simp [pvBeq]
  | PV.node _ _ _, PV.cut _ => by simp [pvBeq]
  | PV.node b a s, PV.node b2 a2 s2 => by
      simp [pvBeq, pvListBeq_iff s s2, Bool.and_assoc, and_assoc]

theorem pvListBeq_iff : ∀ l m : List PV, pvListBeq l m = true ↔ l = m
  | [], [] => by simp [pvListBeq]
  | [], _ :: _ => by simp [pvListBeq]
  | _ :: _, [] => by simp [pvListBeq]
  | x :: xs, y :: ys => by
      simp [pvListBeq, pvBeq_iff x y, pvListBeq_iff xs ys]

end

instance : DecidableEq PV := fun a b =>
  decidable_of_iff (pvBeq a b = true) (pvBeq_iff a b)

/-- Traversal of the remaining branches of one atom, threading the seen keys
from branch to branch; the parameter is the recursive branch call with its
fuel already fixed. -/
def priVecFold (f : Nat → List Nat → Option (PV × List Nat)) :
    List Nat → List Nat → Option (List PV × List Nat)
  | [], seen => some ([], seen)
  | a3 :: rest, seen => do
    let r ← f a3 seen
    let rr ← priVecFold f rest r.2
    some (r.1 :: rr.1, rr.2)

/-- Recursive branch traversal of stereo_priority_vector (_priority_vector in
the source).  The list of seen keys is threaded through the whole traversal;
a destination atom already seen truncates the branch to the bond value.  The
fuel argument makes the recursion structural; stereo_priority_vector supplies
fuel shown sufficient for every well-formed graph. -/
def priVecAux (atmD : List (Nat × AtomAttrs)) (bndD : List (BKey × BondAttrs))
    (nbr : Nat → List Nat) :
    Nat → Nat → Nat → List Nat → Option (PV × List Nat)
  | 0, _, _, _ => none
  | fuel + 1, a1, a2, seen => do
    let bv ← bndD.lookup (bkey a1 a2)
    let av ← atmD.lookup a2
    if a2 ∈ seen then
      some (PV.cut bv, seen)
    else
      let seen1 := (if a1 ∈ seen then seen else a1 :: seen)
      let seen2 := (if a2 ∈ seen1 then seen1 else a2 :: seen1)
      let a3s := (nbr a2).filter (fun x => x ≠ a1)
      let r ← priVecFold (fun a3 s => priVecAux atmD bndD nbr fuel a2 a3 s)
        a3s seen2
      some (PV.node bv av r.1, r.2)

/-- Embedding of stereo_priority_vector: the sortable representation of the
branch extending from atm through its bonded neighbor nbrK.  A non-backbone
neighbor must be an explicit hydrogen bonded to atm and yields the empty
vector; otherwise the graph is converted to implicit form and traversed
recursively.  none models an assertion or lookup failure. -/
def stereo_priority_vector (g : MGraph) (atm nbrK : Nat) : Option PV :=
  let bbn := backbone_keys g
  let exph := explicit_hydrogen_keys g
  if nbrK ∈ bbn then
    let gi := implicitG g
    if atm ∈ bbn ∧ bkey atm nbrK ∈ bondKeys gi then
      (priVecAux gi.atms gi.bnds (atom_neighbor_keys gi)
        (gi.atms.length + 1) atm nbrK []).map Prod.fst
    else none
  else
    if nbrK ∈ exph ∧ bkey atm nbrK ∈ bondKeys g then some PV.empty else none

/-- Three-way comparison induced by a linear order. -/
def lcmp [LinearOrder α] (a b : α) : Ordering :=
  if a < b then Ordering.lt else if b < a then Ordering.gt else Ordering.eq

/-- Comparison of natural numbers as an Ordering. -/
def natCmp (a b : Nat) : Ordering := lcmp a b

/-- Comparison of optional booleans: an unset value sorts as negative
infinity (below False), mirroring _replace_nones_with_negative_infinity. -/
def obCmp : Option Bool → Option Bool → Ordering
  | none, none => Ordering.eq
  | none, some _ => Ordering.lt
  | some _, none => Ordering.gt
  | some false, some false => Ordering.eq
  | some false, some true => Ordering.lt
  | some true, some false => Ordering.gt
  | some true, some true => Ordering.eq

/-- Comparison of characters by code point (the order of the Char linear
order is the code-point order). -/
def charCmp (a b : Char) : Ordering := lcmp a b

/-- Lexicographic comparison of lists from an element comparison, with a
shorter list sorting before any extension of it (Python sequence order). -/
def listCmpWith (f : α → α → Ordering) : List α → List α → Ordering
  | [], [] => Ordering.eq
  | [], _ :: _ => Ordering.lt
  | _ :: _, [] => Ordering.gt
  | a :: as, b :: bs => (f a b).then (listCmpWith f as bs)

/-- Lexicographic comparison of strings by code point (Python string order). -/
def strCmp (a b : String) : Ordering := listCmpWith charCmp a.data b.data

/-- Comparison of bond attribute values: order, then parity. -/
def bndCmp (a b : BondAttrs) : Ordering :=
  (natCmp a.ord b.ord).then (obCmp a.par b.par)

/-- Comparison of atom attribute values: symbol, then hydrogen count, then
parity. -/
def atmCmp (a b : AtomAttrs) : Ordering :=
  (strCmp a.sym b.sym).then ((natCmp a.hyd b.hyd).then (obCmp a.par b.par))

mutual

/-- Lexicographic comparison of priority vectors, mirroring Python tuple
comparison: the empty tuple sorts first, a truncated tuple that is a prefix of
a longer one sorts before it, and components are compared position by
position. -/
def pvCmp : PV → PV → Ordering
  | PV.empty, PV.empty => Ordering.eq
  | PV.empty, _ => Ordering.lt
  | _, PV.empty => Ordering.gt
  | PV.cut b, PV.cut b2 => bndCmp b b2
  | PV.cut b, PV.node b2 _ _ => (bndCmp b b2).then Ordering.lt
  | PV.node b _ _, PV.cut b2 => (bndCmp b b2).then Ordering.gt
  | PV.node b a s, PV.node b2 a2 s2 =>
      (bndCmp b b2).then ((atmCmp a a2).then (pvListCmp s s2))

/-- Lexicographic comparison of the sub-vector lists of two priority
vectors. -/
def pvListCmp : List PV → List PV → Ordering
  | [], [] => Ordering.eq
  | [], _ :: _ => Ordering.lt
  | _ :: _, [] => Ordering.gt
  | x :: xs, y :: ys => (pvCmp x y).then (pvListCmp xs ys)

end

/-- Ascending comparison used when sorting by priority vector. -/
def pvLe (a b : PV) : Prop := pvCmp a b ≠ Ordering.gt

instance : DecidableRel pvLe := fun a b => by
  unfold pvLe; infer_instance

/-- Embedding of stereo_sorted_atom_neighbor_keys: the neighbor keys of an
atom sorted ascending by stereo priority vector.  The numpy argsort of the
source (a third-party routine outside this repository) is modelled from the
spec contract as an ascending stable sort of the priority vectors. -/
def pvPairLe (p q : Nat × PV) : Prop := pvLe p.2 q.2

instance : DecidableRel pvPairLe := fun p q => by
  unfold pvPairLe
  infer_instance

def stereo_sorted_atom_neighbor_keys (g : MGraph) (atm : Nat)
    (nbrs : List Nat) : Option (List Nat) := do
  let pvs ← omap (stereo_priority_vector g atm) nbrs
  some ((List.insertionSort pvPairLe (nbrs.zip pvs)).map Prod.fst)

/-- Embedding of stereogenic_atom_keys: after discarding bond orders and
restoring explicit hydrogens, the atoms of total bond valence four, without
an assigned parity, whose neighbor-branch priority vectors are pairwise
distinct.  none models a raised assertion inside a priority-vector call. -/
def stereogenic_atom_keys (g : MGraph) : Option (List Nat) :=
  let g2 := explicitG (without_bond_orders g)
  let cands := ((g2.atms.filter
      (fun p => atom_bond_valences g2 p.1 = 4)).map Prod.fst).filter
      (fun k => k ∉ atom_stereo_keys g2)
  ofilter (fun k => do
    let pvs ← omap (stereo_priority_vector g2 k) (atom_neighbor_keys g2 k)
    some (decide pvs.Nodup)) cands

/-- Modelled from the spec: the resonance analysis and ring detection of the
graph accessor layer (resonance_dominant_bond_orders,
resonance_dominant_atom_hybridizations, rings_bond_keys) live outside this
module; the spec fixes only their signatures, so they are parameters:
dominant bond orders per bond, dominant hybridization per atom (2 meaning sp2),
and the list of rings, each given by its set of bond keys. -/
structure ResOracle where
  bndOrds : MGraph → BKey → List Nat
  atmHyb : MGraph → Nat → Nat
  rings : MGraph → List (List BKey)

/-- Is the bond part of some ring of fewer than eight atoms? -/
def inSmallRing (O : ResOracle) (g2 : MGraph) (bk : BKey) : Bool :=
  (O.rings g2).any (fun r => decide (r.length < 8) && decide (bk ∈ r))

/-- Embedding of _is_symmetric_on_bond: is the given endpoint of a candidate
double bond symmetric?  Zero other substituents: symmetric; one: not
symmetric; two: symmetric exactly when their priority vectors are equal; any
other count fails the assertion (none). -/
def isSymOnBond (g2 : MGraph) (a b : Nat) : Option Bool :=
  match (atom_neighbor_keys g2 a).filter (fun x => x ≠ b) with
  | [] => some true
  | [_] => some false
  | [x, y] => do
    let p ← stereo_priority_vector g2 a x
    let q ← stereo_priority_vector g2 a y
    some (decide (p = q))
  | _ => none

/-- Embedding of _is_stereogenic for bonds: neither endpoint symmetric, with
the Python or-operator short-circuit: the second endpoint is examined only
when the first is not symmetric. -/
def isSteBond (g2 : MGraph) (bk : BKey) : Option Bool := do
  let s1 ← isSymOnBond g2 bk.1 bk.2
  if s1 then some false
  else do
    let s2 ← isSymOnBond g2 bk.2 bk.1
    some (!s2)

/-- Candidate bonds of stereogenic_bond_keys before the small-ring cut:
double-bond character in a dominant resonance structure, sp2 endpoints, and
no assigned parity, read off the transformed graph. -/
def bond_candidate_keys (O : ResOracle) (g2 : MGraph) : List BKey :=
  (((bondKeys g2).filter
    (fun bk => 2 ∈ O.bndOrds g2 bk)).filter
    (fun bk => O.atmHyb g2 bk.1 = 2 ∧ O.atmHyb g2 bk.2 = 2)).filter
    (fun bk => bk ∉ bond_stereo_keys g2)

/-- Embedding of stereogenic_bond_keys: candidate bonds have double-bond
character in a dominant resonance structure, sp2 endpoints, no assigned
parity, and lie in no ring of fewer than eight atoms; a candidate is
stereogenic when neither endpoint is symmetric. -/
def stereogenic_bond_keys (O : ResOracle) (g : MGraph) : Option (List BKey) :=
  let g2 := explicitG (without_bond_orders g)
  ofilter (isSteBond g2)
    ((bond_candidate_keys O g2).filter (fun bk => ¬ inSmallRing O g2 bk))

/-- All boolean assignment tuples of the given length, in the order
enumerated by itertools.product over (False, True). -/
def boolCombos : Nat → List (List Bool)
  | 0 => [[]]
  | n + 1 =>
    ((boolCombos n).map (fun t => false :: t)) ++
      ((boolCombos n).map (fun t => true :: t))

/-- Embedding of _expand_atom_stereo: all assignments of parities to the
currently stereogenic atoms of one graph. -/
def expandAtomStereo (g : MGraph) : Option (List MGraph) := do
  let ks ← stereogenic_atom_keys g
  some ((boolCombos ks.length).map
    (fun vs => set_atom_stereo_parities g (ks.zip vs)))

/-- Embedding of _expand_bond_stereo: all assignments of parities to the
currently stereogenic bonds of one graph. -/
def expandBondStereo (O : ResOracle) (g : MGraph) : Option (List MGraph) := do
  let ks ← stereogenic_bond_keys O g
  some ((boolCombos ks.length).map
    (fun vs => set_bond_stereo_parities g (ks.zip vs)))

/-- One full pass of the stereomer fixed-point loop: an atom expansion pass
followed by a bond expansion pass over the whole working set. -/
def expandAll (O : ResOracle) (l : List MGraph) : Option (List MGraph) := do
  let l1 ← oflat expandAtomStereo l
  oflat (expandBondStereo O) l1

/-- The while loop of stereomers, with fuel: repeat full passes until the
working set stops changing. -/
def stereomersLoop (O : ResOracle) : Nat → List MGraph → Option (List MGraph)
  | 0, _ => none
  | fuel + 1, sgrs => do
    let sgrs2 ← expandAll O sgrs
    if sgrs2 = sgrs then some sgrs else stereomersLoop O fuel sgrs2

/-- Comparison of pairs, component by component. -/
def pairCmp (f : α → α → Ordering) (h : β → β → Ordering)
    (p q : α × β) : Ordering :=
  (f p.1 q.1).then (h p.2 q.2)

/-- Comparison of bond keys. -/
def bkCmp (a b : BKey) : Ordering := (natCmp a.1 b.1).then (natCmp a.2 b.2)

/-- Modelled from the spec: frozen, the canonical comparable form of a graph
used for deduplication and sorting.  The representation here is already a
canonical value, so graphs are compared lexicographically entry by entry. -/
def frozenCmp (a b : MGraph) : Ordering :=
  (listCmpWith (pairCmp natCmp atmCmp) a.atms b.atms).then
    (listCmpWith (pairCmp bkCmp bndCmp) a.bnds b.bnds)

/-- Ascending comparison of graphs by their frozen form. -/
def frozenLe (a b : MGraph) : Prop := frozenCmp a b ≠ Ordering.gt

instance : DecidableRel frozenLe := fun a b => by
  unfold frozenLe; infer_instance

/-- Sorting of the final stereomer set by canonical form (Python sorted with
the frozen key, modelled as a stable ascending sort). -/
def sortByFrozen (l : List MGraph) : List MGraph :=
  List.insertionSort frozenLe l

/-- Embedding of stereomers: clear every parity, expand to a fixed point
alternating atom and bond passes, then sort canonically. -/
def stereomers (O : ResOracle) (g : MGraph) : Option (List MGraph) := do
  let start := without_stereo_parities g
  let res ← stereomersLoop O (start.atms.length + start.bnds.length + 2)
    [start]
  some (sortByFrozen res)

/-- Assigned (non-missing) atom parities of a graph, as key-value pairs
(dict_.filter_by_value with an is-not-None test, then items). -/
def assignedAtomParities (g : MGraph) : List (Nat × Bool) :=
  g.atms.filterMap (fun p => (p.2.par).map (fun b => (p.1, b)))

/-- Assigned (non-missing) bond parities of a graph, as key-value pairs. -/
def assignedBondParities (g : MGraph) : List (BKey × Bool) :=
  g.bnds.filterMap (fun p => (p.2.par).map (fun b => (p.1, b)))

/-- Embedding of _is_compatible: the known assignments of the input graph are
a subset of the candidate graph's assignments, for atoms and for bonds. -/
def isCompatible (g s : MGraph) : Bool :=
  (assignedAtomParities g).all (fun kv => kv ∈ assignedAtomParities s) &&
    (assignedBondParities g).all (fun kv => kv ∈ assignedBondParities s)

/-- Embedding of substereomers: the stereomers compatible with this graph's
assignments. -/
def substereomers (O : ResOracle) (g : MGraph) : Option (List MGraph) := do
  let full ← stereomers O g
  some (full.filter (fun s => isCompatible g s))

theorem lookup_nil [BEq α] (k : α) : ([] : List (α × β)).lookup k = none := rfl

theorem lookup_append_left [BEq α] [LawfulBEq α] (k : α)
    (l1 l2 : List (α × β)) (h : k ∈ l1.map Prod.fst) :
    (l1 ++ l2).lookup k = l1.lookup k := by
  induction l1 with
  | nil => simp at h
  | cons p rest ih =>
    by_cases hk : k = p.1
    · subst hk; simp [List.lookup]
    · have hne : (k == p.1) = false := beq_false_of_ne hk
      simp only [List.cons_append, List.lookup, hne]
      apply ih
      simp only [List.map_cons, List.mem_cons] at h
      exact h.resolve_left hk

theorem lookup_append_right [BEq α] [LawfulBEq α] (k : α)
    (l1 l2 : List (α × β)) (h : k ∉ l1.map Prod.fst) :
    (l1 ++ l2).lookup k = l2.lookup k := by
  induction l1 with
  | nil => rfl
  | cons p rest ih =>
    simp only [List.map_cons, List.mem_cons] at h
    push_neg at h
    have hne : (k == p.1) = false := beq_false_of_ne h.1
    simp only [List.cons_append, List.lookup, hne]
    exact ih h.2

theorem mem_of_lookup_eq_some [BEq α] [LawfulBEq α] {k : α}
    {l : List (α × β)} {v : β} (h : l.lookup k = some v) : (k, v) ∈ l := by
  induction l with
  | nil => simp [List.lookup] at h
  | cons p rest ih =>
    by_cases hk : k = p.1
    · subst hk
      simp [List.lookup] at h
      simp [← h]
    · have hne : (k == p.1) = false := beq_false_of_ne hk
      simp only [List.lookup, hne] at h
      exact List.mem_cons_of_mem _ (ih h)

theorem lookup_isSome_iff [BEq α] [LawfulBEq α] (k : α) (l : List (α × β)) :
    (l.lookup k).isSome = true ↔ k ∈ l.map Prod.fst := by
  induction l with
  | nil => simp [List.lookup]
  | cons p rest ih =>
    by_cases hk : k = p.1
    · subst hk; simp [List.lookup]
    · have hne : (k == p.1) = false := beq_false_of_ne hk
      simp only [List.lookup, hne, List.map_cons, List.mem_cons]
      rw [ih]
      exact ⟨fun h => Or.inr h, fun h => h.resolve_left hk⟩

theorem lookup_eq_some_of_mem [BEq α] [LawfulBEq α] {k : α} {v : β}
    {l : List (α × β)} (hnd : (l.map Prod.fst).Nodup) (h : (k, v) ∈ l) :
    l.lookup k = some v := by
  induction l with
  | nil => simp at h
  | cons p rest ih =>
    simp only [List.map_cons, List.nodup_cons] at hnd
    rcases List.mem_cons.mp h with h | h
    · rw [← h]; simp [List.lookup]
    · have hk : k ≠ p.1 := by
        intro he
        exact hnd.1 (he ▸ (List.mem_map_of_mem Prod.fst h))
      have hne : (k == p.1) = false := beq_false_of_ne hk
      simp only [List.lookup, hne]
      exact ih hnd.2 h

theorem omap_length {f : α → Option β} :
    ∀ {l : List α} {r : List β}, omap f l = some r → r.length = l.length := by
  intro l
  induction l with
  | nil => intro r h; simp [omap] at h; simp [← h]
  | cons a rest ih =>
    intro r h
    simp only [omap, Option.bind_eq_bind, Option.bind_eq_some] at h
    rcases h with ⟨b, hb, bs, hbs, he⟩
    injection he with he2
    subst he2
    simp [ih hbs]

theorem omap_zip_mem {f : α → Option β} :
    ∀ {l : List α} {r : List β}, omap f l = some r →
      ∀ p ∈ l.zip r, f p.1 = some p.2 := by
  intro l
  induction l with
  | nil => intro r h p hp; simp at hp
  | cons a rest ih =>
    intro r h p hp
    simp only [omap, Option.bind_eq_bind, Option.bind_eq_some] at h
    rcases h with ⟨b, hb, bs, hbs, he⟩
    injection he with he2
    subst he2
    rcases List.mem_cons.mp hp with hp | hp
    · rw [hp]; exact hb
    · exact ih hbs p hp

theorem omap_of_forall {f : α → Option β} {h : α → β} :
    ∀ {l : List α}, (∀ x ∈ l, f x = some (h x)) → omap f l = some (l.map h) := by
  intro l
  induction l with
  | nil => intro _; rfl
  | cons a rest ih =>
    intro hall
    simp only [omap, Option.bind_eq_bind, hall a (List.mem_cons_self a rest),
      Option.some_bind, ih (fun x hx => hall x (List.mem_cons_of_mem a hx)),
      List.map_cons]

theorem ofilter_mem {f : α → Option Bool} :
    ∀ {l : List α} {r : List α}, ofilter f l = some r →
      ∀ x, x ∈ r ↔ x ∈ l ∧ f x = some true := by
  intro l
  induction l with
  | nil =>
    intro r h x
    simp only [ofilter, Option.some_inj] at h
    subst h
    simp
  | cons a rest ih =>
    intro r h x
    simp only [ofilter, Option.bind_eq_bind, Option.bind_eq_some] at h
    rcases h with ⟨b, hb, rs, hrs, he⟩
    cases b with
    | true =>
      simp only [if_true] at he
      injection he with he2
      subst he2
      simp only [List.mem_cons, ih hrs]
      constructor
      · rintro (hx | ⟨hx, hfx⟩)
        · exact ⟨Or.inl hx, hx ▸ hb⟩
        · exact ⟨Or.inr hx, hfx⟩
      · rintro ⟨hx | hx, hfx⟩
        · exact Or.inl hx
        · exact Or.inr ⟨hx, hfx⟩
    | false =>
      simp only [Bool.false_eq_true, if_false] at he
      injection he with he2
      subst he2
      rw [ih hrs]
      constructor
      · rintro ⟨hx, hfx⟩
        exact ⟨List.mem_cons_of_mem a hx, hfx⟩
      · rintro ⟨hx, hfx⟩
        rcases List.mem_cons.mp hx with hx2 | hx2
        · rw [hx2] at hfx
          rw [hfx] at hb
          exact absurd (Option.some_injective _ hb) (by simp)
        · exact ⟨hx2, hfx⟩

theorem ofilter_none_of_mem {f : α → Option Bool} :
    ∀ {l : List α} {x : α}, x ∈ l → f x = none → ofilter f l = none := by
  intro l
  induction l with
  | nil => intro x hx; simp at hx
  | cons a rest ih =>
    intro x hx hfx
    rcases List.mem_cons.mp hx with hx | hx
    · simp [ofilter, hx ▸ hfx]
    · simp only [ofilter, Option.bind_eq_bind]
      cases hfa : f a with
      | none => rfl
      | some b => simp [ih hx hfx]

theorem without_stereo_idem (g : MGraph) :
    without_stereo_parities (without_stereo_parities g) =
      without_stereo_parities g := by
  simp [without_stereo_parities, List.map_map, Function.comp]

/-- C8: stereomers ignores any stereo parity assignments already present in
the input graph: enumerating after stripping parities gives the same result
as enumerating directly. -/
theorem stereomers_ignores_assignments (O : ResOracle) (g : MGraph) :
    stereomers O (without_stereo_parities g) = stereomers O g := by
  unfold stereomers
  rw [without_stereo_idem]

/-- C7: every substereomer is a stereomer, and its assigned atom and bond
parities extend the input graph's own assigned parities. -/
theorem substereomers_subset_and_extend (O : ResOracle) (g : MGraph)
    (l : List MGraph) (h : substereomers O g = some l) :
    ∀ x ∈ l, (∃ L, stereomers O g = some L ∧ x ∈ L) ∧
      (∀ kv ∈ assignedAtomParities g, kv ∈ assignedAtomParities x) ∧
      (∀ kv ∈ assignedBondParities g, kv ∈ assignedBondParities x) := by
  intro x hx
  simp only [substereomers, Option.bind_eq_bind, Option.bind_eq_some] at h
  rcases h with ⟨L, hL, he⟩
  simp only [Option.some_inj] at he
  rw [← he] at hx
  have hmem := List.mem_of_mem_filter hx
  have hcompat := List.of_mem_filter hx
  simp only [isCompatible, Bool.and_eq_true, List.all_eq_true, decide_eq_true_eq] at hcompat
  exact ⟨⟨L, hL, hmem⟩, hcompat.1, hcompat.2⟩

/-- Closed instance of C7 at a concrete chiral graph: the graph with one of
the two parities assigned has a single compatible stereomer. -/
def gChiralW : MGraph :=
  MGraph.mk
    [(0, AtomAttrs.mk "C" 0 (some true)), (1, AtomAttrs.mk "F" 0 none),
      (2, AtomAttrs.mk "Cl" 0 none), (3, AtomAttrs.mk "Br" 0 none),
      (4, AtomAttrs.mk "I" 0 none)]
    [((0, 1), BondAttrs.mk 1 none), ((0, 2), BondAttrs.mk 1 none),
      ((0, 3), BondAttrs.mk 1 none), ((0, 4), BondAttrs.mk 1 none)]

/-- Trivial resonance data: single bonds everywhere, sp3 atoms, no rings. -/
def oracleNone : ResOracle :=
  ResOracle.mk (fun _ _ => [1]) (fun _ _ => 3) (fun _ => [])

/-- Closed instance of C7 at a concrete graph: the chiral graph with one
parity assigned has exactly one compatible stereomer, itself. -/
theorem substereomers_subset_and_extend_witness :
    (∃ L, stereomers oracleNone gChiralW = some L ∧ gChiralW ∈ L) ∧
      (∀ kv ∈ assignedAtomParities gChiralW,
        kv ∈ assignedAtomParities gChiralW) ∧
      (∀ kv ∈ assignedBondParities gChiralW,
        kv ∈ assignedBondParities gChiralW) :=
  substereomers_subset_and_extend oracleNone gChiralW [gChiralW] (by decide)
    gChiralW (by decide)

theorem then_eq_eq_iff (o p : Ordering) :
    o.then p = Ordering.eq ↔ o = Ordering.eq ∧ p = Ordering.eq := by
  cases o <;> simp [Ordering.then]

theorem then_eq_lt_iff (o p : Ordering) :
    o.then p = Ordering.lt ↔
      o = Ordering.lt ∨ (o = Ordering.eq ∧ p = Ordering.lt) := by
  cases o <;> simp [Ordering.then]

theorem then_eq_gt_iff (o p : Ordering) :
    o.then p = Ordering.gt ↔
      o = Ordering.gt ∨ (o = Ordering.eq ∧ p = Ordering.gt) := by
  cases o <;> simp [Ordering.then]

theorem swap_then (o p : Ordering) : (o.then p).swap = o.swap.then p.swap := by
  cases o <;> rfl

theorem lcmp_lt_iff [LinearOrder α] (a b : α) :
    lcmp a b = Ordering.lt ↔ a < b := by
  unfold lcmp
  split_ifs with h1 h2 <;> simp [h1]

theorem lcmp_gt_iff [LinearOrder α] (a b : α) :
    lcmp a b = Ordering.gt ↔ b < a := by
  unfold lcmp
  split_ifs with h1 h2
  · simp [h1, asymm h1]
  · simp [h2]
  · simp [h2]

theorem lcmp_eq_iff [LinearOrder α] (a b : α) :
    lcmp a b = Ordering.eq ↔ a = b := by
  unfold lcmp
  split_ifs with h1 h2
  · simp [ne_of_lt h1]
  · simp [(ne_of_lt h2).symm]
  · simp [le_antisymm (not_lt.mp h2) (not_lt.mp h1)]

theorem lcmp_refl [LinearOrder α] (a : α) : lcmp a a = Ordering.eq :=
  (lcmp_eq_iff a a).mpr rfl

theorem lcmp_swap [LinearOrder α] (a b : α) : lcmp a b = (lcmp b a).swap := by
  rcases lt_trichotomy a b with h | h | h
  · rw [(lcmp_lt_iff a b).mpr h, (lcmp_gt_iff b a).mpr h]; rfl
  · rw [(lcmp_eq_iff a b).mpr h, (lcmp_eq_iff b a).mpr h.symm]; rfl
  · rw [(lcmp_gt_iff a b).mpr h, (lcmp_lt_iff b a).mpr h]; rfl

theorem lcmp_lt_trans [LinearOrder α] {a b c : α}
    (h1 : lcmp a b = Ordering.lt) (h2 : lcmp b c = Ordering.lt) :
    lcmp a c = Ordering.lt :=
  (lcmp_lt_iff a c).mpr (lt_trans ((lcmp_lt_iff a b).mp h1)
    ((lcmp_lt_iff b c).mp h2))

theorem obCmp_refl (a : Option Bool) : obCmp a a = Ordering.eq := by
  cases a with
  | none => rfl
  | some b => cases b <;> rfl

theorem obCmp_eq : ∀ {a b : Option Bool}, obCmp a b = Ordering.eq → a = b := by
  decide

theorem obCmp_swap : ∀ a b : Option Bool, obCmp a b = (obCmp b a).swap := by
  decide

theorem obCmp_lt_trans : ∀ {a b c : Option Bool},
    obCmp a b = Ordering.lt → obCmp b c = Ordering.lt →
      obCmp a c = Ordering.lt := by
  decide

theorem listCmp_refl (f : α → α → Ordering) (hr : ∀ a, f a a = Ordering.eq) :
    ∀ l, listCmpWith f l l = Ordering.eq
  | [] => rfl
  | a :: as => by
    simp [listCmpWith, hr a, listCmp_refl f hr as, Ordering.then]

theorem listCmp_eq {f : α → α → Ordering}
    (he : ∀ a b, f a b = Ordering.eq → a = b) :
    ∀ l m, listCmpWith f l m = Ordering.eq → l = m
  | [], [], _ => rfl
  | [], _ :: _, h => by simp [listCmpWith] at h
  | _ :: _, [], h => by simp [listCmpWith] at h
  | a :: as, b :: bs, h => by
    rw [listCmpWith, then_eq_eq_iff] at h
    rw [he a b h.1, listCmp_eq he as bs h.2]

theorem listCmp_swap {f : α → α → Ordering}
    (hs : ∀ a b, f a b = (f b a).swap) :
    ∀ l m, listCmpWith f l m = (listCmpWith f m l).swap
  | [], [] => rfl
  | [], _ :: _ => rfl
  | _ :: _, [] => rfl
  | a :: as, b :: bs => by
    rw [listCmpWith, listCmpWith, hs a b, listCmp_swap hs as bs, swap_then]

theorem listCmp_lt_trans {f : α → α → Ordering}
    (hr : ∀ a, f a a = Ordering.eq)
    (he : ∀ a b, f a b = Ordering.eq → a = b)
    (ht : ∀ a b c, f a b = Ordering.lt → f b c = Ordering.lt →
      f a c = Ordering.lt) :
    ∀ l m n, listCmpWith f l m = Ordering.lt →
      listCmpWith f m n = Ordering.lt → listCmpWith f l n = Ordering.lt
  | [], [], _, h1, _ => by simp [listCmpWith] at h1
  | _ :: _, [], _, h1, _ => by simp [listCmpWith] at h1
  | [], _ :: _, [], _, h2 => by simp [listCmpWith] at h2
  | [], _ :: _, _ :: _, _, _ => rfl
  | a :: as, b :: bs, c :: cs, h1, h2 => by
    rw [listCmpWith, then_eq_lt_iff] at h1 h2 ⊢
    rcases h1 with h1 | ⟨h1e, h1l⟩
    · rcases h2 with h2 | ⟨h2e, h2l⟩
      · exact Or.inl (ht a b c h1 h2)
      · exact Or.inl (he b c h2e ▸ h1)
    · rcases h2 with h2 | ⟨h2e, h2l⟩
      · exact Or.inl (he a b h1e ▸ h2)
      · refine Or.inr ⟨?_, listCmp_lt_trans hr he ht as bs cs h1l h2l⟩
        rw [he a b h1e, he b c h2e, hr c]

theorem str_ext {a b : String} (h : a.data = b.data) : a = b :=
  congrArg String.mk h

theorem strCmp_refl (a : String) : strCmp a a = Ordering.eq :=
  listCmp_refl charCmp (fun c => lcmp_refl c) a.data

theorem strCmp_eq {a b : String} (h : strCmp a b = Ordering.eq) : a = b :=
  str_ext (listCmp_eq (fun c d hc => (lcmp_eq_iff c d).mp hc) a.data b.data h)

theorem strCmp_swap (a b : String) : strCmp a b = (strCmp b a).swap :=
  listCmp_swap (fun c d => lcmp_swap c d) a.data b.data

theorem strCmp_lt_trans {a b c : String} (h1 : strCmp a b = Ordering.lt)
    (h2 : strCmp b c = Ordering.lt) : strCmp a c = Ordering.lt :=
  listCmp_lt_trans (fun x => lcmp_refl x) (fun x y hx => (lcmp_eq_iff x y).mp hx)
    (fun _ _ _ hx hy => lcmp_lt_trans hx hy) a.data b.data c.data h1 h2

theorem natCmp_refl (a : Nat) : natCmp a a = Ordering.eq := lcmp_refl a

theorem natCmp_toEq : ∀ a b : Nat, natCmp a b = Ordering.eq → a = b :=
  fun a b hx => (lcmp_eq_iff a b).mp hx

theorem natCmp_swap (a b : Nat) : natCmp a b = (natCmp b a).swap := lcmp_swap a b

theorem natCmp_lt_trans : ∀ a b c : Nat, natCmp a b = Ordering.lt →
    natCmp b c = Ordering.lt → natCmp a c = Ordering.lt :=
  fun _ _ _ hx hy => lcmp_lt_trans hx hy

theorem obCmp_toEq : ∀ a b : Option Bool, obCmp a b = Ordering.eq → a = b :=
  fun _ _ hx => obCmp_eq hx

theorem obCmp_ltt : ∀ a b c : Option Bool, obCmp a b = Ordering.lt →
    obCmp b c = Ordering.lt → obCmp a c = Ordering.lt :=
  fun _ _ _ hx hy => obCmp_lt_trans hx hy

theorem pairCmp_refl {f : α → α → Ordering} {h : β → β → Ordering}
    (hf : ∀ a, f a a = Ordering.eq) (hh : ∀ b, h b b = Ordering.eq)
    (p : α × β) : pairCmp f h p p = Ordering.eq := by
  simp [pairCmp, hf, hh, Ordering.then]

theorem pairCmp_eq {f : α → α → Ordering} {h : β → β → Ordering}
    (hfe : ∀ a b, f a b = Ordering.eq → a = b)
    (hhe : ∀ a b, h a b = Ordering.eq → a = b)
    {p q : α × β} (hpq : pairCmp f h p q = Ordering.eq) : p = q := by
  rw [pairCmp, then_eq_eq_iff] at hpq
  exact Prod.ext (hfe _ _ hpq.1) (hhe _ _ hpq.2)

theorem pairCmp_swap {f : α → α → Ordering} {h : β → β → Ordering}
    (hfs : ∀ a b, f a b = (f b a).swap) (hhs : ∀ a b, h a b = (h b a).swap)
    (p q : α × β) : pairCmp f h p q = (pairCmp f h q p).swap := by
  rw [pairCmp, pairCmp, swap_then, ← hfs, ← hhs]

theorem pairCmp_lt_trans {f : α → α → Ordering} {h : β → β → Ordering}
    (hfr : ∀ a, f a a = Ordering.eq)
    (hfe : ∀ a b, f a b = Ordering.eq → a = b)
    (hft : ∀ a b c, f a b = Ordering.lt → f b c = Ordering.lt →
      f a c = Ordering.lt)
    (hht : ∀ a b c, h a b = Ordering.lt → h b c = Ordering.lt →
      h a c = Ordering.lt)
    {p q r : α × β} (h1 : pairCmp f h p q = Ordering.lt)
    (h2 : pairCmp f h q r = Ordering.lt) : pairCmp f h p r = Ordering.lt := by
  rw [pairCmp, then_eq_lt_iff] at h1 h2 ⊢
  rcases h1 with h1 | ⟨h1e, h1l⟩
  · rcases h2 with h2 | ⟨h2e, h2l⟩
    · exact Or.inl (hft _ _ _ h1 h2)
    · exact Or.inl (hfe _ _ h2e ▸ h1)
  · rcases h2 with h2 | ⟨h2e, h2l⟩
    · exact Or.inl (hfe _ _ h1e ▸ h2)
    · exact Or.inr ⟨by rw [hfe _ _ h1e, hfe _ _ h2e, hfr], hht _ _ _ h1l h2l⟩

theorem bndCmp_pair (a b : BondAttrs) :
    bndCmp a b = pairCmp natCmp obCmp (a.ord, a.par) (b.ord, b.par) := rfl

theorem bndCmp_refl (a : BondAttrs) : bndCmp a a = Ordering.eq := by
  rw [bndCmp_pair]
  exact pairCmp_refl natCmp_refl obCmp_refl _

theorem bndCmp_eq {a b : BondAttrs} (h : bndCmp a b = Ordering.eq) : a = b := by
  rw [bndCmp_pair] at h
  have := pairCmp_eq natCmp_toEq obCmp_toEq h
  cases a
  cases b
  simpa using And.intro (congrArg Prod.fst this) (congrArg Prod.snd this)

theorem bndCmp_swap (a b : BondAttrs) : bndCmp a b = (bndCmp b a).swap := by
  rw [bndCmp_pair, bndCmp_pair]
  exact pairCmp_swap natCmp_swap obCmp_swap _ _

theorem bndCmp_lt_trans {a b c : BondAttrs} (h1 : bndCmp a b = Ordering.lt)
    (h2 : bndCmp b c = Ordering.lt) : bndCmp a c = Ordering.lt := by
  rw [bndCmp_pair] at h1 h2 ⊢
  exact pairCmp_lt_trans natCmp_refl natCmp_toEq natCmp_lt_trans obCmp_ltt
    h1 h2

theorem atmCmp_pair (a b : AtomAttrs) :
    atmCmp a b = pairCmp strCmp (pairCmp natCmp obCmp)
      (a.sym, (a.hyd, a.par)) (b.sym, (b.hyd, b.par)) := rfl

theorem atmCmp_refl (a : AtomAttrs) : atmCmp a a = Ordering.eq := by
  rw [atmCmp_pair]
  exact pairCmp_refl strCmp_refl (pairCmp_refl natCmp_refl obCmp_refl) _

theorem atmCmp_eq {a b : AtomAttrs} (h : atmCmp a b = Ordering.eq) : a = b := by
  rw [atmCmp_pair] at h
  have := pairCmp_eq (fun _ _ hx => strCmp_eq hx)
    (fun _ _ hx => pairCmp_eq natCmp_toEq obCmp_toEq hx) h
  cases a
  cases b
  have h1 := congrArg Prod.fst this
  have h2 := congrArg (fun p => p.2.1) this
  have h3 := congrArg (fun p => p.2.2) this
  simp only at h1 h2 h3
  simp [h1, h2, h3]

theorem atmCmp_swap (a b : AtomAttrs) : atmCmp a b = (atmCmp b a).swap := by
  rw [atmCmp_pair, atmCmp_pair]
  exact pairCmp_swap strCmp_swap
    (fun x y => pairCmp_swap natCmp_swap obCmp_swap x y) _ _

theorem atmCmp_lt_trans {a b c : AtomAttrs} (h1 : atmCmp a b = Ordering.lt)
    (h2 : atmCmp b c = Ordering.lt) : atmCmp a c = Ordering.lt := by
  rw [atmCmp_pair] at h1 h2 ⊢
  refine pairCmp_lt_trans strCmp_refl (fun _ _ hx => strCmp_eq hx)
    (fun _ _ _ hx hy => strCmp_lt_trans hx hy) ?_ h1 h2
  exact fun _ _ _ hx hy =>
    pairCmp_lt_trans natCmp_refl natCmp_toEq natCmp_lt_trans obCmp_ltt hx hy

theorem bkCmp_pair (a b : BKey) : bkCmp a b = pairCmp natCmp natCmp a b := rfl

theorem bkCmp_refl (a : BKey) : bkCmp a a = Ordering.eq := by
  rw [bkCmp_pair]
  exact pairCmp_refl natCmp_refl natCmp_refl _

theorem bkCmp_eq {a b : BKey} (h : bkCmp a b = Ordering.eq) : a = b := by
  rw [bkCmp_pair] at h
  exact pairCmp_eq natCmp_toEq natCmp_toEq h

theorem bkCmp_swap (a b : BKey) : bkCmp a b = (bkCmp b a).swap := by
  rw [bkCmp_pair, bkCmp_pair]
  exact pairCmp_swap natCmp_swap natCmp_swap _ _

theorem bkCmp_lt_trans {a b c : BKey} (h1 : bkCmp a b = Ordering.lt)
    (h2 : bkCmp b c = Ordering.lt) : bkCmp a c = Ordering.lt := by
  rw [bkCmp_pair] at h1 h2 ⊢
  exact pairCmp_lt_trans natCmp_refl natCmp_toEq natCmp_lt_trans
    natCmp_lt_trans h1 h2

theorem bndCmp_toEq : ∀ a b : BondAttrs, bndCmp a b = Ordering.eq → a = b :=
  fun _ _ h => bndCmp_eq h

theorem bndCmp_ltt : ∀ a b c : BondAttrs, bndCmp a b = Ordering.lt →
    bndCmp b c = Ordering.lt → bndCmp a c = Ordering.lt :=
  fun _ _ _ h1 h2 => bndCmp_lt_trans h1 h2

theorem atmCmp_toEq : ∀ a b : AtomAttrs, atmCmp a b = Ordering.eq → a = b :=
  fun _ _ h => atmCmp_eq h

theorem atmCmp_ltt : ∀ a b c : AtomAttrs, atmCmp a b = Ordering.lt →
    atmCmp b c = Ordering.lt → atmCmp a c = Ordering.lt :=
  fun _ _ _ h1 h2 => atmCmp_lt_trans h1 h2

theorem bkCmp_toEq : ∀ a b : BKey, bkCmp a b = Ordering.eq → a = b :=
  fun _ _ h => bkCmp_eq h

theorem bkCmp_ltt : ∀ a b c : BKey, bkCmp a b = Ordering.lt →
    bkCmp b c = Ordering.lt → bkCmp a c = Ordering.lt :=
  fun _ _ _ h1 h2 => bkCmp_lt_trans h1 h2

theorem then_lt_of_lt {o : Ordering} (h : o = Ordering.lt) (t : Ordering) :
    o.then t = Ordering.lt := by
  rw [h]
  rfl

theorem then_lt_of_eq {o t : Ordering} (h : o = Ordering.eq)
    (ht : t = Ordering.lt) : o.then t = Ordering.lt := by
  rw [h, ht]
  rfl

mutual

theorem pvCmp_refl : ∀ p : PV, pvCmp p p = Ordering.eq
  | PV.empty => rfl
  | PV.cut b => bndCmp_refl b
  | PV.node b a s => by
    show (bndCmp b b).then ((atmCmp a a).then (pvListCmp s s)) = Ordering.eq
    rw [bndCmp_refl b, atmCmp_refl a, pvListCmp_refl s]
    rfl

theorem pvListCmp_refl : ∀ l : List PV, pvListCmp l l = Ordering.eq
  | [] => rfl
  | x :: xs => by
    show (pvCmp x x).then (pvListCmp xs xs) = Ordering.eq
    rw [pvCmp_refl x, pvListCmp_refl xs]
    rfl

end

mutual

theorem pvCmp_toEq : ∀ p q : PV, pvCmp p q = Ordering.eq → p = q
  | PV.empty, PV.empty, _ => rfl
  | PV.empty, PV.cut _, h => by simp [pvCmp] at h
  | PV.empty, PV.node _ _ _, h => by simp [pvCmp] at h
  | PV.cut _, PV.empty, h => by simp [pvCmp] at h
  | PV.cut b, PV.cut b2, h => congrArg PV.cut (bndCmp_eq h)
  | PV.cut b, PV.node b2 a2 s2, h => by
    rw [show pvCmp (PV.cut b) (PV.node b2 a2 s2) =
      (bndCmp b b2).then Ordering.lt from rfl, then_eq_eq_iff] at h
    exact absurd h.2 (by decide)
  | PV.node _ _ _, PV.empty, h => by simp [pvCmp] at h
  | PV.node b a s, PV.cut b2, h => by
    rw [show pvCmp (PV.node b a s) (PV.cut b2) =
      (bndCmp b b2).then Ordering.gt from rfl, then_eq_eq_iff] at h
    exact absurd h.2 (by decide)
  | PV.node b a s, PV.node b2 a2 s2, h => by
    rw [show pvCmp (PV.node b a s) (PV.node b2 a2 s2) =
      (bndCmp b b2).then ((atmCmp a a2).then (pvListCmp s s2)) from rfl,
      then_eq_eq_iff, then_eq_eq_iff] at h
    rw [bndCmp_eq h.1, atmCmp_eq h.2.1, pvListCmp_toEq s s2 h.2.2]

theorem pvListCmp_toEq : ∀ l m : List PV, pvListCmp l m = Ordering.eq → l = m
  | [], [], _ => rfl
  | [], _ :: _, h => by simp [pvListCmp] at h
  | _ :: _, [], h => by simp [pvListCmp] at h
  | x :: xs, y :: ys, h => by
    rw [show pvListCmp (x :: xs) (y :: ys) =
      (pvCmp x y).then (pvListCmp xs ys) from rfl, then_eq_eq_iff] at h
    rw [pvCmp_toEq x y h.1, pvListCmp_toEq xs ys h.2]

end

mutual

theorem pvCmp_swap : ∀ p q : PV, pvCmp p q = (pvCmp q p).swap
  | PV.empty, PV.empty => rfl
  | PV.empty, PV.cut _ => rfl
  | PV.empty, PV.node _ _ _ => rfl
  | PV.cut _, PV.empty => rfl
  | PV.cut b, PV.cut b2 => bndCmp_swap b b2
  | PV.cut b, PV.node b2 a2 s2 => by
    show (bndCmp b b2).then Ordering.lt =
      ((bndCmp b2 b).then Ordering.gt).swap
    rw [swap_then, ← bndCmp_swap]
    rfl
  | PV.node _ _ _, PV.empty => rfl
  | PV.node b a s, PV.cut b2 => by
    show (bndCmp b b2).then Ordering.gt =
      ((bndCmp b2 b).then Ordering.lt).swap
    rw [swap_then, ← bndCmp_swap]
    rfl
  | PV.node b a s, PV.node b2 a2 s2 => by
    show (bndCmp b b2).then ((atmCmp a a2).then (pvListCmp s s2)) =
      ((bndCmp b2 b).then ((atmCmp a2 a).then (pvListCmp s2 s))).swap
    rw [swap_then, swap_then, ← bndCmp_swap, ← atmCmp_swap,
      pvListCmp_swap s s2]

theorem pvListCmp_swap : ∀ l m : List PV, pvListCmp l m = (pvListCmp m l).swap
  | [], [] => rfl
  | [], _ :: _ => rfl
  | _ :: _, [] => rfl
  | x :: xs, y :: ys => by
    show (pvCmp x y).then (pvListCmp xs ys) =
      ((pvCmp y x).then (pvListCmp ys xs)).swap
    rw [swap_then, ← pvCmp_swap x y, pvListCmp_swap xs ys]

end

mutual

theorem pvCmp_lt_trans : ∀ p q r : PV, pvCmp p q = Ordering.lt →
    pvCmp q r = Ordering.lt → pvCmp p r = Ordering.lt
  | PV.empty, PV.empty, _, h1, _ => by simp [pvCmp] at h1
  | PV.cut _, PV.empty, _, h1, _ => by simp [pvCmp] at h1
  | PV.node _ _ _, PV.empty, _, h1, _ => by simp [pvCmp] at h1
  | PV.empty, PV.cut _, PV.empty, _, h2 => by simp [pvCmp] at h2
  | PV.empty, PV.node _ _ _, PV.empty, _, h2 => by simp [pvCmp] at h2
  | PV.empty, PV.cut _, PV.cut _, _, _ => rfl
  | PV.empty, PV.cut _, PV.node _ _ _, _, _ => rfl
  | PV.empty, PV.node _ _ _, PV.cut _, _, _ => rfl
  | PV.empty, PV.node _ _ _, PV.node _ _ _, _, _ => rfl
  | PV.cut b, PV.cut b2, PV.cut b3, h1, h2 => bndCmp_lt_trans h1 h2
  | PV.cut b, PV.cut b2, PV.node b3 a3 s3, h1, h2 => by
    rw [show pvCmp (PV.cut b2) (PV.node b3 a3 s3) =
      (bndCmp b2 b3).then Ordering.lt from rfl, then_eq_lt_iff] at h2
    show (bndCmp b b3).then Ordering.lt = Ordering.lt
    rcases h2 with h2 | ⟨h2, _⟩
    · exact then_lt_of_lt (bndCmp_lt_trans h1 h2) _
    · exact then_lt_of_lt (bndCmp_eq h2 ▸ h1) _
  | PV.cut b, PV.node b2 a2 s2, PV.cut b3, h1, h2 => by
    rw [show pvCmp (PV.cut b) (PV.node b2 a2 s2) =
      (bndCmp b b2).then Ordering.lt from rfl, then_eq_lt_iff] at h1
    rw [show pvCmp (PV.node b2 a2 s2) (PV.cut b3) =
      (bndCmp b2 b3).then Ordering.gt from rfl, then_eq_lt_iff] at h2
    rcases h2 with h2 | ⟨_, h2⟩
    · rcases h1 with h1 | ⟨h1, _⟩
      · exact bndCmp_lt_trans h1 h2
      · exact bndCmp_eq h1 ▸ h2
    · exact absurd h2 (by decide)
  | PV.cut b, PV.node b2 a2 s2, PV.node b3 a3 s3, h1, h2 => by
    rw [show pvCmp (PV.cut b) (PV.node b2 a2 s2) =
      (bndCmp b b2).then Ordering.lt from rfl, then_eq_lt_iff] at h1
    rw [show pvCmp (PV.node b2 a2 s2) (PV.node b3 a3 s3) =
      (bndCmp b2 b3).then ((atmCmp a2 a3).then (pvListCmp s2 s3)) from rfl,
      then_eq_lt_iff] at h2
    show (bndCmp b b3).then Ordering.lt = Ordering.lt
    rcases h1 with h1 | ⟨h1, _⟩
    · rcases h2 with h2 | ⟨h2, _⟩
      · exact then_lt_of_lt (bndCmp_lt_trans h1 h2) _
      · exact then_lt_of_lt (bndCmp_eq h2 ▸ h1) _
    · rcases h2 with h2 | ⟨h2, _⟩
      · exact then_lt_of_lt (bndCmp_eq h1 ▸ h2) _
      · refine then_lt_of_eq ?_ rfl
        rw [bndCmp_eq h1, bndCmp_eq h2, bndCmp_refl]
  | PV.node b a s, PV.cut b2, PV.cut b3, h1, h2 => by
    rw [show pvCmp (PV.node b a s) (PV.cut b2) =
      (bndCmp b b2).then Ordering.gt from rfl, then_eq_lt_iff] at h1
    show (bndCmp b b3).then Ordering.gt = Ordering.lt
    rcases h1 with h1 | ⟨_, h1⟩
    · exact then_lt_of_lt (bndCmp_lt_trans h1 h2) _
    · exact absurd h1 (by decide)
  | PV.node b a s, PV.cut b2, PV.node b3 a3 s3, h1, h2 => by
    rw [show pvCmp (PV.node b a s) (PV.cut b2) =
      (bndCmp b b2).then Ordering.gt from rfl, then_eq_lt_iff] at h1
    rw [show pvCmp (PV.cut b2) (PV.node b3 a3 s3) =
      (bndCmp b2 b3).then Ordering.lt from rfl, then_eq_lt_iff] at h2
    show (bndCmp b b3).then ((atmCmp a a3).then (pvListCmp s s3)) =
      Ordering.lt
    rcases h1 with h1 | ⟨_, h1⟩
    · rcases h2 with h2 | ⟨h2, _⟩
      · exact then_lt_of_lt (bndCmp_lt_trans h1 h2) _
      · exact then_lt_of_lt (bndCmp_eq h2 ▸ h1) _
    · exact absurd h1 (by decide)
  | PV.node b a s, PV.node b2 a2 s2, PV.cut b3, h1, h2 => by
    rw [show pvCmp (PV.node b a s) (PV.node b2 a2 s2) =
      (bndCmp b b2).then ((atmCmp a a2).then (pvListCmp s s2)) from rfl,
      then_eq_lt_iff] at h1
    rw [show pvCmp (PV.node b2 a2 s2) (PV.cut b3) =
      (bndCmp b2 b3).then Ordering.gt from rfl, then_eq_lt_iff] at h2
    show (bndCmp b b3).then Ordering.gt = Ordering.lt
    rcases h2 with h2 | ⟨_, h2⟩
    · rcases h1 with h1 | ⟨h1, _⟩
      · exact then_lt_of_lt (bndCmp_lt_trans h1 h2) _
      · exact then_lt_of_lt (bndCmp_eq h1 ▸ h2) _
    · exact absurd h2 (by decide)
  | PV.node b a s, PV.node b2 a2 s2, PV.node b3 a3 s3, h1, h2 => by
    rw [show pvCmp (PV.node b a s) (PV.node b2 a2 s2) =
      (bndCmp b b2).then ((atmCmp a a2).then (pvListCmp s s2)) from rfl,
      then_eq_lt_iff] at h1
    rw [show pvCmp (PV.node b2 a2 s2) (PV.node b3 a3 s3) =
      (bndCmp b2 b3).then ((atmCmp a2 a3).then (pvListCmp s2 s3)) from rfl,
      then_eq_lt_iff] at h2
    show (bndCmp b b3).then ((atmCmp a a3).then (pvListCmp s s3)) =
      Ordering.lt
    rcases h1 with h1 | ⟨h1e, h1t⟩
    · rcases h2 with h2 | ⟨h2e, h2t⟩
      · exact then_lt_of_lt (bndCmp_lt_trans h1 h2) _
      · exact then_lt_of_lt (bndCmp_eq h2e ▸ h1) _
    · rcases h2 with h2 | ⟨h2e, h2t⟩
      · exact then_lt_of_lt (bndCmp_eq h1e ▸ h2) _
      · refine then_lt_of_eq (by rw [bndCmp_eq h1e, bndCmp_eq h2e,
          bndCmp_refl]) ?_
        rw [then_eq_lt_iff] at h1t h2t ⊢
        rcases h1t with h1t | ⟨h1te, h1tl⟩
        · rcases h2t with h2t | ⟨h2te, h2tl⟩
          · exact Or.inl (atmCmp_lt_trans h1t h2t)
          · exact Or.inl (atmCmp_eq h2te ▸ h1t)
        · rcases h2t with h2t | ⟨h2te, h2tl⟩
          · exact Or.inl (atmCmp_eq h1te ▸ h2t)
          · refine Or.inr ⟨by rw [atmCmp_eq h1te, atmCmp_eq h2te,
              atmCmp_refl], ?_⟩
            exact pvListCmp_lt_trans s s2 s3 h1tl h2tl

theorem pvListCmp_lt_trans : ∀ l m n : List PV,
    pvListCmp l m = Ordering.lt → pvListCmp m n = Ordering.lt →
      pvListCmp l n = Ordering.lt
  | [], [], _, h1, _ => by simp [pvListCmp] at h1
  | _ :: _, [], _, h1, _ => by simp [pvListCmp] at h1
  | [], _ :: _, [], _, h2 => by simp [pvListCmp] at h2
  | [], _ :: _, _ :: _, _, _ => rfl
  | x :: xs, y :: ys, z :: zs, h1, h2 => by
    rw [show pvListCmp (x :: xs) (y :: ys) =
      (pvCmp x y).then (pvListCmp xs ys) from rfl, then_eq_lt_iff] at h1
    rw [show pvListCmp (y :: ys) (z :: zs) =
      (pvCmp y z).then (pvListCmp ys zs) from rfl, then_eq_lt_iff] at h2
    show (pvCmp x z).then (pvListCmp xs zs) = Ordering.lt
    rcases h1 with h1 | ⟨h1e, h1l⟩
    · rcases h2 with h2 | ⟨h2e, h2l⟩
      · exact then_lt_of_lt (pvCmp_lt_trans x y z h1 h2) _
      · exact then_lt_of_lt (pvCmp_toEq y z h2e ▸ h1) _
    · rcases h2 with h2 | ⟨h2e, h2l⟩
      · exact then_lt_of_lt (pvCmp_toEq x y h1e ▸ h2) _
      · refine then_lt_of_eq (by rw [pvCmp_toEq x y h1e, pvCmp_toEq y z h2e,
          pvCmp_refl]) ?_
        exact pvListCmp_lt_trans xs ys zs h1l h2l

end

theorem cmpLe_total_of_swap {f : α → α → Ordering}
    (hs : ∀ a b, f a b = (f b a).swap) (a b : α) :
    f a b ≠ Ordering.gt ∨ f b a ≠ Ordering.gt := by
  by_cases h : f a b = Ordering.gt
  · right
    rw [hs b a, h]
    decide
  · left
    exact h

theorem cmpLe_trans_of {f : α → α → Ordering}
    (he : ∀ a b, f a b = Ordering.eq → a = b)
    (ht : ∀ a b c, f a b = Ordering.lt → f b c = Ordering.lt →
      f a c = Ordering.lt)
    {a b c : α} (h1 : f a b ≠ Ordering.gt) (h2 : f b c ≠ Ordering.gt) :
    f a c ≠ Ordering.gt := by
  cases hab : f a b with
  | gt => exact absurd hab h1
  | eq =>
    have hab2 := he a b hab
    rw [hab2]
    exact h2
  | lt =>
    cases hbc : f b c with
    | gt => exact absurd hbc h2
    | eq =>
      have hbc2 := he b c hbc
      rw [← hbc2]
      exact h1
    | lt =>
      rw [ht a b c hab hbc]
      decide

theorem pvLe_total (p q : PV) : pvLe p q ∨ pvLe q p :=
  cmpLe_total_of_swap pvCmp_swap p q

theorem pvLe_trans {p q r : PV} (h1 : pvLe p q) (h2 : pvLe q r) : pvLe p r :=
  cmpLe_trans_of pvCmp_toEq pvCmp_lt_trans h1 h2

theorem pvLe_refl (p : PV) : pvLe p p := by
  unfold pvLe
  rw [pvCmp_refl p]
  decide

instance : IsTotal (Nat × PV) pvPairLe :=
  IsTotal.mk (fun p q => pvLe_total p.2 q.2)

instance : IsTrans (Nat × PV) pvPairLe :=
  IsTrans.mk (fun _ _ _ h1 h2 => pvLe_trans h1 h2)

theorem frozenCmp_swap (a b : MGraph) : frozenCmp a b = (frozenCmp b a).swap := by
  unfold frozenCmp
  rw [swap_then,
    ← listCmp_swap (fun p q => pairCmp_swap natCmp_swap atmCmp_swap p q)
      a.atms b.atms,
    ← listCmp_swap (fun p q => pairCmp_swap bkCmp_swap bndCmp_swap p q)
      a.bnds b.bnds]

theorem frozenCmp_toEq : ∀ a b : MGraph,
    frozenCmp a b = Ordering.eq → a = b := by
  intro a b h
  unfold frozenCmp at h
  rw [then_eq_eq_iff] at h
  have h1 := listCmp_eq
    (fun p q hp => pairCmp_eq natCmp_toEq atmCmp_toEq hp)
    a.atms b.atms h.1
  have h2 := listCmp_eq
    (fun p q hp => pairCmp_eq bkCmp_toEq bndCmp_toEq hp)
    a.bnds b.bnds h.2
  cases a
  cases b
  simp only at h1 h2
  rw [h1, h2]

theorem frozenCmp_lt_trans : ∀ a b c : MGraph,
    frozenCmp a b = Ordering.lt → frozenCmp b c = Ordering.lt →
      frozenCmp a c = Ordering.lt := by
  intro a b c h1 h2
  unfold frozenCmp at h1 h2 ⊢
  rw [then_eq_lt_iff] at h1 h2 ⊢
  have hatr : ∀ l, listCmpWith (pairCmp natCmp atmCmp) l l = Ordering.eq :=
    listCmp_refl _ (pairCmp_refl natCmp_refl atmCmp_refl)
  have hate : ∀ l m, listCmpWith (pairCmp natCmp atmCmp) l m = Ordering.eq →
      l = m :=
    listCmp_eq (fun p q hp => pairCmp_eq natCmp_toEq atmCmp_toEq hp)
  have hatt := @listCmp_lt_trans _ (pairCmp natCmp atmCmp)
    (pairCmp_refl natCmp_refl atmCmp_refl)
    (fun p q hp => pairCmp_eq natCmp_toEq atmCmp_toEq hp)
    (fun p q r hp hq => pairCmp_lt_trans natCmp_refl natCmp_toEq
      natCmp_lt_trans atmCmp_ltt hp hq)
  have hbdt := @listCmp_lt_trans _ (pairCmp bkCmp bndCmp)
    (pairCmp_refl bkCmp_refl bndCmp_refl)
    (fun p q hp => pairCmp_eq bkCmp_toEq bndCmp_toEq hp)
    (fun p q r hp hq => pairCmp_lt_trans bkCmp_refl bkCmp_toEq bkCmp_ltt
      bndCmp_ltt hp hq)
  rcases h1 with h1 | ⟨h1e, h1l⟩
  · rcases h2 with h2 | ⟨h2e, h2l⟩
    · exact Or.inl (hatt _ _ _ h1 h2)
    · exact Or.inl (hate _ _ h2e ▸ h1)
  · rcases h2 with h2 | ⟨h2e, h2l⟩
    · exact Or.inl (hate _ _ h1e ▸ h2)
    · exact Or.inr ⟨by rw [hate _ _ h1e, hate _ _ h2e, hatr],
        hbdt _ _ _ h1l h2l⟩

theorem frozenLe_total (a b : MGraph) : frozenLe a b ∨ frozenLe b a :=
  cmpLe_total_of_swap frozenCmp_swap a b

theorem frozenLe_trans {a b c : MGraph} (h1 : frozenLe a b)
    (h2 : frozenLe b c) : frozenLe a c :=
  cmpLe_trans_of frozenCmp_toEq frozenCmp_lt_trans h1 h2

instance : IsTotal MGraph frozenLe := IsTotal.mk frozenLe_total

instance : IsTrans MGraph frozenLe :=
  IsTrans.mk (fun _ _ _ h1 h2 => frozenLe_trans h1 h2)

theorem omap_map_fst {f : α → Option β} :
    ∀ {l : List (α × β)}, (∀ p ∈ l, f p.1 = some p.2) →
      omap f (l.map Prod.fst) = some (l.map Prod.snd) := by
  intro l
  induction l with
  | nil => intro _; rfl
  | cons p rest ih =>
    intro hall
    simp only [List.map_cons, omap, Option.bind_eq_bind,
      hall p (List.mem_cons_self p rest), Option.some_bind,
      ih (fun q hq => hall q (List.mem_cons_of_mem p hq))]

theorem zip_fst_snd : ∀ l : List (α × β),
    (l.map Prod.fst).zip (l.map Prod.snd) = l := by
  intro l
  induction l with
  | nil => rfl
  | cons a rest ih => simp [ih]

/-- C6: stereo_sorted_atom_neighbor_keys returns a permutation of its input,
sorted ascending by priority-vector comparison; neighbors with equal priority
vectors keep their relative input order; and sorting the output again gives
the output unchanged. -/
theorem stereo_sorted_perm_sorted_stable_idem (g : MGraph) (atm : Nat)
    (nbrs out : List Nat)
    (h : stereo_sorted_atom_neighbor_keys g atm nbrs = some out) :
    out.Perm nbrs ∧
      out.Pairwise (fun k k2 => ∀ p p2,
        stereo_priority_vector g atm k = some p →
          stereo_priority_vector g atm k2 = some p2 → pvLe p p2) ∧
      (∀ v : PV,
        out.filter (fun k => stereo_priority_vector g atm k = some v) =
          nbrs.filter (fun k => stereo_priority_vector g atm k = some v)) ∧
      stereo_sorted_atom_neighbor_keys g atm out = some out := by
  simp only [stereo_sorted_atom_neighbor_keys, Option.bind_eq_bind,
    Option.bind_eq_some, Option.some_inj] at h
  rcases h with ⟨pvs, hpvs, hout⟩
  have hlen : pvs.length = nbrs.length := omap_length hpvs
  have hzf : (nbrs.zip pvs).map Prod.fst = nbrs :=
    List.map_fst_zip nbrs pvs (le_of_eq hlen.symm)
  have hzmem : ∀ p ∈ nbrs.zip pvs, stereo_priority_vector g atm p.1 = some p.2 :=
    omap_zip_mem hpvs
  have hperm : (List.insertionSort pvPairLe (nbrs.zip pvs)).Perm
      (nbrs.zip pvs) := List.perm_insertionSort pvPairLe (nbrs.zip pvs)
  have hsmem : ∀ p ∈ List.insertionSort pvPairLe (nbrs.zip pvs),
      stereo_priority_vector g atm p.1 = some p.2 :=
    fun p hp => hzmem p (hperm.mem_iff.mp hp)
  have hsorted : List.Sorted pvPairLe
      (List.insertionSort pvPairLe (nbrs.zip pvs)) :=
    List.sorted_insertionSort pvPairLe (nbrs.zip pvs)
  subst hout
  refine ⟨?_, ?_, ?_, ?_⟩
  · have hp2 := hperm.map Prod.fst
    rw [hzf] at hp2
    exact hp2
  · refine List.pairwise_map.mpr ?_
    refine hsorted.imp_of_mem ?_
    intro p q hp hq hle
    intro v v2 hv hv2
    have hv3 := hsmem p hp
    have hv4 := hsmem q hq
    rw [hv3] at hv
    rw [hv4] at hv2
    have e1 := Option.some_injective _ hv
    have e2 := Option.some_injective _ hv2
    rw [← e1, ← e2]
    exact hle
  · intro v
    conv_rhs => rw [← hzf]
    rw [List.filter_map, List.filter_map]
    congr 1
    show List.filter (fun q : Nat × PV =>
        decide (stereo_priority_vector g atm q.1 = some v))
        (List.insertionSort pvPairLe (nbrs.zip pvs)) =
      List.filter (fun q : Nat × PV =>
        decide (stereo_priority_vector g atm q.1 = some v)) (nbrs.zip pvs)
    have hc : ((nbrs.zip pvs).filter (fun q : Nat × PV =>
        decide (stereo_priority_vector g atm q.1 = some v))).Pairwise
          pvPairLe := by
      refine List.pairwise_of_forall_mem_list ?_
      intro x hx y hy
      have hxm := List.mem_of_mem_filter hx
      have hym := List.mem_of_mem_filter hy
      have hxp := List.of_mem_filter hx
      have hyp := List.of_mem_filter hy
      simp only [decide_eq_true_eq] at hxp hyp
      have hx2 : x.2 = v :=
        Option.some_injective _ ((hzmem x hxm).symm.trans hxp)
      have hy2 : y.2 = v :=
        Option.some_injective _ ((hzmem y hym).symm.trans hyp)
      unfold pvPairLe
      rw [hx2, hy2]
      exact pvLe_refl v
    have hsub : ((nbrs.zip pvs).filter (fun q : Nat × PV =>
        decide (stereo_priority_vector g atm q.1 = some v))).Sublist
          (List.insertionSort pvPairLe (nbrs.zip pvs)) :=
      List.sublist_insertionSort hc (List.filter_sublist (nbrs.zip pvs))
    have hsub2 := hsub.filter (fun q : Nat × PV =>
      decide (stereo_priority_vector g atm q.1 = some v))
    have hcc : (((nbrs.zip pvs).filter (fun q : Nat × PV =>
        decide (stereo_priority_vector g atm q.1 = some v))).filter
          (fun q : Nat × PV =>
            decide (stereo_priority_vector g atm q.1 = some v))) =
        ((nbrs.zip pvs).filter (fun q : Nat × PV =>
          decide (stereo_priority_vector g atm q.1 = some v))) := by
      apply List.filter_eq_self.mpr
      intro a ha
      exact (List.mem_filter.mp ha).2
    rw [hcc] at hsub2
    have hperm2 := hperm.filter (fun q : Nat × PV =>
      decide (stereo_priority_vector g atm q.1 = some v))
    exact (hsub2.eq_of_length hperm2.length_eq.symm).symm
  · have homap2 := @omap_map_fst _ _ (stereo_priority_vector g atm) _ hsmem
    simp only [stereo_sorted_atom_neighbor_keys, Option.bind_eq_bind,
      homap2, Option.some_bind, Option.some_inj]
    rw [zip_fst_snd, hsorted.insertionSort_eq]

/-- Closed instance of C6 at a concrete chiral graph: sorting the four
distinct heavy-atom branches of the central carbon. -/
theorem stereo_sorted_witness :
    ([3, 2, 1, 4] : List Nat).Perm [4, 3, 2, 1] ∧
      ([3, 2, 1, 4] : List Nat).Pairwise (fun k k2 => ∀ p p2,
        stereo_priority_vector gChiralW 0 k = some p →
          stereo_priority_vector gChiralW 0 k2 = some p2 → pvLe p p2) ∧
      (∀ v : PV,
        ([3, 2, 1, 4] : List Nat).filter
            (fun k => stereo_priority_vector gChiralW 0 k = some v) =
          ([4, 3, 2, 1] : List Nat).filter
            (fun k => stereo_priority_vector gChiralW 0 k = some v)) ∧
      stereo_sorted_atom_neighbor_keys gChiralW 0 [3, 2, 1, 4] =
        some [3, 2, 1, 4] :=
  stereo_sorted_perm_sorted_stable_idem gChiralW 0 [4, 3, 2, 1] [3, 2, 1, 4]
    (by decide)

/-- C1: stereogenic_atom_keys contains exactly the atom keys that, in the
graph with bond orders discarded and explicit hydrogens restored, have total
bond valence exactly four, carry no assigned stereo parity, and whose
neighbor-branch priority vectors are pairwise distinct. -/
theorem stereogenic_atom_keys_iff (g : MGraph) (s : List Nat)
    (h : stereogenic_atom_keys g = some s) (k : Nat) :
    k ∈ s ↔
      (k ∈ atomKeys (explicitG (without_bond_orders g)) ∧
        atom_bond_valences (explicitG (without_bond_orders g)) k = 4 ∧
        k ∉ atom_stereo_keys (explicitG (without_bond_orders g)) ∧
        ∃ pvs,
          omap (stereo_priority_vector (explicitG (without_bond_orders g)) k)
            (atom_neighbor_keys (explicitG (without_bond_orders g)) k) =
              some pvs ∧
          pvs.Nodup) := by
  unfold stereogenic_atom_keys at h
  rw [ofilter_mem h k]
  constructor
  · rintro ⟨hk, hpred⟩
    have hk2 := List.mem_filter.mp hk
    rcases List.mem_map.mp hk2.1 with ⟨p, hp, hpk⟩
    have hp2 := List.mem_filter.mp hp
    refine ⟨?_, ?_, ?_, ?_⟩
    · exact List.mem_map.mpr ⟨p, hp2.1, hpk⟩
    · have := hp2.2
      simp only [decide_eq_true_eq] at this
      rw [← hpk]
      exact this
    · have := hk2.2
      simp only [decide_eq_true_eq] at this
      exact this
    · simp only [Option.bind_eq_bind, Option.bind_eq_some,
        Option.some_inj] at hpred
      rcases hpred with ⟨pvs, hpvs, hdec⟩
      exact ⟨pvs, hpvs, of_decide_eq_true hdec⟩
  · rintro ⟨hmem, hval, hunassigned, pvs, hpvs, hnd⟩
    constructor
    · refine List.mem_filter.mpr ⟨?_, by simpa using hunassigned⟩
      rcases List.mem_map.mp hmem with ⟨p, hp, hpk⟩
      refine List.mem_map.mpr ⟨p, ?_, hpk⟩
      refine List.mem_filter.mpr ⟨hp, ?_⟩
      simp only [decide_eq_true_eq, hpk]
      exact hval
    · simp only [Option.bind_eq_bind, Option.bind_eq_some, Option.some_inj]
      exact ⟨pvs, hpvs, by simpa using hnd⟩

/-- Graph used as witness for C1: one implicit-hydrogen methane carbon. -/
def gCH4W : MGraph := MGraph.mk [(0, AtomAttrs.mk "C" 4 none)] []

/-- Closed instance of C1: the methane carbon has valence four and no
assigned parity but equal hydrogen branches, so it is not stereogenic. -/
theorem stereogenic_atom_keys_iff_witness :
    (0 : Nat) ∈ ([] : List Nat) ↔
      ((0 : Nat) ∈ atomKeys (explicitG (without_bond_orders gCH4W)) ∧
        atom_bond_valences (explicitG (without_bond_orders gCH4W)) 0 = 4 ∧
        (0 : Nat) ∉ atom_stereo_keys (explicitG (without_bond_orders gCH4W)) ∧
        ∃ pvs,
          omap (stereo_priority_vector (explicitG (without_bond_orders gCH4W))
              0)
            (atom_neighbor_keys (explicitG (without_bond_orders gCH4W)) 0) =
              some pvs ∧
          pvs.Nodup) :=
  stereogenic_atom_keys_iff gCH4W [] (by decide) 0

/-- Substituents of an endpoint of a bond other than the bond partner. -/
def otherSubstituents (g2 : MGraph) (a b : Nat) : List Nat :=
  (atom_neighbor_keys g2 a).filter (fun x => x ≠ b)

/-- Specification-side notion of a symmetric bond endpoint: it has zero
other substituents, or exactly two other substituents whose priority vectors
are equal. -/
def EndpointSym (g2 : MGraph) (a b : Nat) : Prop :=
  otherSubstituents g2 a b = [] ∨
    ∃ x y, otherSubstituents g2 a b = [x, y] ∧
      stereo_priority_vector g2 a x = stereo_priority_vector g2 a y

theorem isSymOnBond_spec {g2 : MGraph} {a b : Nat} {t : Bool}
    (h : isSymOnBond g2 a b = some t) : t = true ↔ EndpointSym g2 a b := by
  unfold isSymOnBond at h
  cases hlist : (atom_neighbor_keys g2 a).filter (fun x => x ≠ b) with
  | nil =>
    rw [hlist] at h
    have ht : t = true := (Option.some_injective _ h).symm
    subst ht
    have hO : otherSubstituents g2 a b = [] := hlist
    exact ⟨fun _ => Or.inl hO, fun _ => rfl⟩
  | cons x rest =>
    have hO : otherSubstituents g2 a b = x :: rest := hlist
    cases rest with
    | nil =>
      rw [hlist] at h
      have ht : t = false := (Option.some_injective _ h).symm
      subst ht
      simp only [Bool.false_eq_true, false_iff]
      rintro (hc | ⟨u, v, huv, hpv⟩)
      · rw [hO] at hc
        exact absurd hc (by simp)
      · have : ([x] : List Nat) = [u, v] := hO.symm.trans huv
        exact absurd this (by simp)
    | cons y rest2 =>
      cases rest2 with
      | nil =>
        rw [hlist] at h
        simp only [Option.bind_eq_bind, Option.bind_eq_some,
          Option.some_inj] at h
        rcases h with ⟨p, hp, q, hq, ht⟩
        subst ht
        simp only [decide_eq_true_eq]
        constructor
        · intro hpq
          exact Or.inr ⟨x, y, hO, by rw [hp, hq, hpq]⟩
        · rintro (hc | ⟨u, v, huv, hpv⟩)
          · rw [hO] at hc
            exact absurd hc (by simp)
          · have hxy : ([x, y] : List Nat) = [u, v] := hO.symm.trans huv
            have hu : x = u := by
              have := congrArg (fun l => l.headI) hxy
              simpa using this
            have hv : y = v := by
              have := congrArg (fun l => l.tail.headI) hxy
              simpa using this
            subst hu
            subst hv
            rw [hp, hq] at hpv
            exact Option.some_injective _ hpv
      | cons z rest3 =>
        rw [hlist] at h
        exact absurd h (by simp)

theorem isSymOnBond_none {g2 : MGraph} {a b : Nat}
    (h : 2 < (otherSubstituents g2 a b).length) : isSymOnBond g2 a b = none := by
  unfold isSymOnBond
  unfold otherSubstituents at h
  cases hlist : (atom_neighbor_keys g2 a).filter (fun x => x ≠ b) with
  | nil => rw [hlist] at h; simp at h
  | cons x rest =>
    cases rest with
    | nil => rw [hlist] at h; simp at h
    | cons y rest2 =>
      cases rest2 with
      | nil => rw [hlist] at h; simp at h
      | cons z rest3 => rfl

/-- C2 (amended): for a candidate double bond that survives the small-ring
cut, membership in stereogenic_bond_keys is equivalent to both endpoints
being non-symmetric in the 0-, 1-, 2-substituent sense; a candidate whose
first endpoint has more than two other substituents makes the operation
fail, as does one whose first endpoint is non-symmetric while the second
endpoint has more than two other substituents (the second endpoint of a
candidate with a symmetric first endpoint is never examined). -/
theorem stereogenic_bond_keys_characterization (O : ResOracle) (g : MGraph) :
    (∀ s, stereogenic_bond_keys O g = some s →
      ∀ bk ∈ (bond_candidate_keys O (explicitG (without_bond_orders g))).filter
        (fun bk =>
          ¬ inSmallRing O (explicitG (without_bond_orders g)) bk),
        (bk ∈ s ↔
          ¬ EndpointSym (explicitG (without_bond_orders g)) bk.1 bk.2 ∧
          ¬ EndpointSym (explicitG (without_bond_orders g)) bk.2 bk.1)) ∧
    (∀ bk ∈ (bond_candidate_keys O (explicitG (without_bond_orders g))).filter
        (fun bk =>
          ¬ inSmallRing O (explicitG (without_bond_orders g)) bk),
      2 < (otherSubstituents (explicitG (without_bond_orders g))
          bk.1 bk.2).length →
        stereogenic_bond_keys O g = none) ∧
    (∀ bk ∈ (bond_candidate_keys O (explicitG (without_bond_orders g))).filter
        (fun bk =>
          ¬ inSmallRing O (explicitG (without_bond_orders g)) bk),
      isSymOnBond (explicitG (without_bond_orders g)) bk.1 bk.2 =
          some false →
        2 < (otherSubstituents (explicitG (without_bond_orders g))
            bk.2 bk.1).length →
          stereogenic_bond_keys O g = none) := by
  refine ⟨?_, ?_, ?_⟩
  · intro s h bk hbk
    unfold stereogenic_bond_keys at h
    rw [ofilter_mem h bk]
    have hiff : isSteBond (explicitG (without_bond_orders g)) bk = some true ↔
        ¬ EndpointSym (explicitG (without_bond_orders g)) bk.1 bk.2 ∧
        ¬ EndpointSym (explicitG (without_bond_orders g)) bk.2 bk.1 := by
      unfold isSteBond
      constructor
      · intro hst
        simp only [Option.bind_eq_bind, Option.bind_eq_some] at hst
        rcases hst with ⟨s1, hs1, hrest⟩
        cases s1 with
        | true => simp at hrest
        | false =>
          simp only [Bool.false_eq_true, if_false, Option.bind_eq_some,
            Option.some_inj] at hrest
          rcases hrest with ⟨s2, hs2, hs2v⟩
          have hs2f : s2 = false := by
            cases s2 with
            | false => rfl
            | true => simp at hs2v
          subst hs2f
          constructor
          · intro hes
            have := (isSymOnBond_spec hs1).mpr hes
            simp at this
          · intro hes
            have := (isSymOnBond_spec hs2).mpr hes
            simp at this
      · rintro ⟨he1, he2⟩
        have hin := (ofilter_mem h bk).mpr
        have hsome : ∃ t, isSymOnBond (explicitG (without_bond_orders g))
            bk.1 bk.2 = some t := by
          cases ho : isSymOnBond (explicitG (without_bond_orders g))
            bk.1 bk.2 with
          | some t => exact ⟨t, rfl⟩
          | none =>
            have hnone : isSteBond (explicitG (without_bond_orders g)) bk =
                none := by
              unfold isSteBond
              rw [ho]
              rfl
            have := ofilter_none_of_mem hbk hnone
            rw [this] at h
            exact absurd h (by simp)
        rcases hsome with ⟨t1, ht1⟩
        have ht1f : t1 = false := by
          cases t1 with
          | false => rfl
          | true => exact absurd ((isSymOnBond_spec ht1).mp rfl) he1
        subst ht1f
        have hsome2 : ∃ t, isSymOnBond (explicitG (without_bond_orders g))
            bk.2 bk.1 = some t := by
          cases ho : isSymOnBond (explicitG (without_bond_orders g))
            bk.2 bk.1 with
          | some t => exact ⟨t, rfl⟩
          | none =>
            have hnone : isSteBond (explicitG (without_bond_orders g)) bk =
                none := by
              unfold isSteBond
              rw [ht1, ho]
              rfl
            have := ofilter_none_of_mem hbk hnone
            rw [this] at h
            exact absurd h (by simp)
        rcases hsome2 with ⟨t2, ht2⟩
        have ht2f : t2 = false := by
          cases t2 with
          | false => rfl
          | true => exact absurd ((isSymOnBond_spec ht2).mp rfl) he2
        subst ht2f
        rw [ht1, ht2]
        rfl
    rw [hiff]
    exact ⟨fun hp => hp.2, fun hp => ⟨hbk, hp⟩⟩
  · intro bk hbk hlen
    have hnone : isSteBond (explicitG (without_bond_orders g)) bk = none := by
      unfold isSteBond
      rw [isSymOnBond_none hlen]
      rfl
    unfold stereogenic_bond_keys
    exact ofilter_none_of_mem hbk hnone
  · intro bk hbk hs1 hlen
    have hnone : isSteBond (explicitG (without_bond_orders g)) bk = none := by
      unfold isSteBond
      rw [hs1, isSymOnBond_none hlen]
      rfl
    unfold stereogenic_bond_keys
    exact ofilter_none_of_mem hbk hnone

/-- Graph for the C2 counterexample: a terminal oxygen double-bonded to a
carbon that carries three substituents. -/
def gC2 : MGraph := MGraph.mk
  [(0, AtomAttrs.mk "O" 0 none), (1, AtomAttrs.mk "C" 0 none),
    (2, AtomAttrs.mk "C" 0 none), (3, AtomAttrs.mk "C" 0 none),
    (4, AtomAttrs.mk "C" 0 none)]
  [((0, 1), BondAttrs.mk 2 none), ((1, 2), BondAttrs.mk 1 none),
    ((1, 3), BondAttrs.mk 1 none), ((1, 4), BondAttrs.mk 1 none)]

/-- Resonance data for gC2: the oxygen-carbon bond has double-bond
character, every atom counts as sp2, no rings. -/
def oracleC2 : ResOracle := ResOracle.mk
  (fun _ bk => if bk = (0, 1) then [2] else [1]) (fun _ _ => 2) (fun _ => [])

/-- C2 counterexample: the candidate bond (0, 1) has an endpoint with three
other substituents, which the claim says must make the operation fail with a
precondition violation, yet stereogenic_bond_keys succeeds: the first
endpoint (the terminal oxygen) is symmetric, so the or-operator
short-circuit never examines the overloaded endpoint. -/
theorem stereogenic_bond_keys_failure_cex :
    (0, 1) ∈ (bond_candidate_keys oracleC2
        (explicitG (without_bond_orders gC2))).filter
        (fun bk =>
          ¬ inSmallRing oracleC2 (explicitG (without_bond_orders gC2)) bk) ∧
      (otherSubstituents (explicitG (without_bond_orders gC2)) 1 0).length =
        3 ∧
      stereogenic_bond_keys oracleC2 gC2 = some [] := by
  decide

/-- Graph for the C2 witness of the failing path: the overloaded endpoint is
examined first. -/
def gC2b : MGraph := MGraph.mk
  [(0, AtomAttrs.mk "C" 0 none), (1, AtomAttrs.mk "O" 0 none),
    (2, AtomAttrs.mk "C" 0 none), (3, AtomAttrs.mk "C" 0 none),
    (4, AtomAttrs.mk "C" 0 none)]
  [((0, 1), BondAttrs.mk 2 none), ((0, 2), BondAttrs.mk 1 none),
    ((0, 3), BondAttrs.mk 1 none), ((0, 4), BondAttrs.mk 1 none)]

/-- Resonance data for gC2b. -/
def oracleC2b : ResOracle := ResOracle.mk
  (fun _ bk => if bk = (0, 1) then [2] else [1]) (fun _ _ => 2) (fun _ => [])

/-- Closed instance of the amended C2: the membership characterization at
the short-circuited candidate of gC2, and the failure when the overloaded
endpoint is the one examined first, as in gC2b. -/
theorem stereogenic_bond_keys_characterization_witness :
    (((0, 1) : BKey) ∈ ([] : List BKey) ↔
      ¬ EndpointSym (explicitG (without_bond_orders gC2)) 0 1 ∧
      ¬ EndpointSym (explicitG (without_bond_orders gC2)) 1 0) ∧
    stereogenic_bond_keys oracleC2b gC2b = none :=
  And.intro
    ((stereogenic_bond_keys_characterization oracleC2 gC2).1 [] (by decide)
      (0, 1) (by decide))
    ((stereogenic_bond_keys_characterization oracleC2b gC2b).2.1 (0, 1)
      (by decide) (by decide))

/-- C5: no bond lying in a ring of fewer than eight atoms is ever a member
of stereogenic_bond_keys, regardless of its substituents. -/
theorem stereogenic_bond_keys_no_small_ring (O : ResOracle) (g : MGraph)
    (s : List BKey) (h : stereogenic_bond_keys O g = some s) (bk : BKey)
    (r : List BKey) (hr : r ∈ O.rings (explicitG (without_bond_orders g)))
    (hlen : r.length < 8) (hin : bk ∈ r) : bk ∉ s := by
  intro hks
  unfold stereogenic_bond_keys at h
  have hm := ((ofilter_mem h bk).mp hks).1
  have hf := (List.mem_filter.mp hm).2
  simp only [decide_eq_true_eq] at hf
  apply hf
  unfold inSmallRing
  rw [List.any_eq_true]
  refine ⟨r, hr, ?_⟩
  simp [hlen, hin]

/-- Cyclopentene-like five-ring with a double bond inside it. -/
def gRing5 : MGraph := MGraph.mk
  [(0, AtomAttrs.mk "C" 1 none), (1, AtomAttrs.mk "C" 1 none),
    (2, AtomAttrs.mk "C" 2 none), (3, AtomAttrs.mk "C" 2 none),
    (4, AtomAttrs.mk "C" 2 none)]
  [((0, 1), BondAttrs.mk 2 none), ((0, 4), BondAttrs.mk 1 none),
    ((1, 2), BondAttrs.mk 1 none), ((2, 3), BondAttrs.mk 1 none),
    ((3, 4), BondAttrs.mk 1 none)]

/-- Resonance data for gRing5: the (0, 1) bond has double character, all
ring atoms sp2, and the ring detector reports the five-membered ring. -/
def oracleRing : ResOracle := ResOracle.mk
  (fun _ bk => if bk = (0, 1) then [1, 2] else [1]) (fun _ _ => 2)
  (fun _ => [[(0, 1), (0, 4), (1, 2), (2, 3), (3, 4)]])

/-- Closed instance of C5: the double bond of the five-ring is excluded. -/
theorem stereogenic_bond_keys_no_small_ring_witness :
    ((0, 1) : BKey) ∉ ([] : List BKey) :=
  stereogenic_bond_keys_no_small_ring oracleRing gRing5 [] (by decide)
    (0, 1) [(0, 1), (0, 4), (1, 2), (2, 3), (3, 4)] (by decide) (by decide)
    (by decide)

theorem filter_unseen_mono {s s2 : List Nat} (hsub : s ⊆ s2) :
    ∀ l : List Nat,
      (l.filter (fun k => k ∉ s2)).length ≤ (l.filter (fun k => k ∉ s)).length
  | [] => Nat.le_refl 0
  | x :: rest => by
    rw [List.filter_cons, List.filter_cons]
    by_cases hx2 : x ∈ s2
    · rw [if_neg (by simp [hx2])]
      by_cases hx : x ∈ s
      · rw [if_neg (by simp [hx])]
        exact filter_unseen_mono hsub rest
      · rw [if_pos (by simp [hx])]
        exact Nat.le_succ_of_le (filter_unseen_mono hsub rest)
    · have hx : x ∉ s := fun hc => hx2 (hsub hc)
      rw [if_pos (by simp [hx2]), if_pos (by simp [hx])]
      exact Nat.succ_le_succ (filter_unseen_mono hsub rest)

theorem filter_unseen_strict {s s2 : List Nat} (hsub : s ⊆ s2) {a : Nat}
    (hns : a ∉ s) (hs2 : a ∈ s2) :
    ∀ l : List Nat, a ∈ l →
      (l.filter (fun k => k ∉ s2)).length < (l.filter (fun k => k ∉ s)).length
  | [] => by intro h; simp at h
  | x :: rest => by
    intro ha
    rw [List.filter_cons, List.filter_cons]
    by_cases hx2 : x ∈ s2
    · rw [if_neg (by simp [hx2])]
      by_cases hx : x ∈ s
      · rw [if_neg (by simp [hx])]
        have har : a ∈ rest := by
          rcases List.mem_cons.mp ha with h | h
          · exact absurd (h ▸ hx) hns
          · exact h
        exact filter_unseen_strict hsub hns hs2 rest har
      · rw [if_pos (by simp [hx])]
        exact Nat.lt_succ_of_le (filter_unseen_mono hsub rest)
    · have hx : x ∉ s := fun hc => hx2 (hsub hc)
      have har : a ∈ rest := by
        rcases List.mem_cons.mp ha with h | h
        · exact absurd (h ▸ hs2) hx2
        · exact h
      rw [if_pos (by simp [hx2]), if_pos (by simp [hx])]
      exact Nat.succ_lt_succ (filter_unseen_strict hsub hns hs2 rest har)

theorem nodup_value_unique {l : List (Nat × α)} (hnd : (l.map Prod.fst).Nodup)
    {k : Nat} {v w : α} (hv : (k, v) ∈ l) (hw : (k, w) ∈ l) : v = w := by
  have h1 := lookup_eq_some_of_mem hnd hv
  have h2 := lookup_eq_some_of_mem hnd hw
  exact Option.some_injective _ (h1.symm.trans h2)

theorem mem_backbone_iff {g : MGraph} {k : Nat} :
    k ∈ backbone_keys g ↔ ∃ a, (k, a) ∈ g.atms ∧ a.sym ≠ "H" := by
  unfold backbone_keys
  constructor
  · intro h
    rcases List.mem_map.mp h with ⟨p, hp, hpk⟩
    have hp2 := List.mem_filter.mp hp
    refine ⟨p.2, ?_, by simpa using hp2.2⟩
    rw [← hpk]
    exact hp2.1
  · rintro ⟨a, ha, hs⟩
    exact List.mem_map.mpr ⟨(k, a),
      List.mem_filter.mpr ⟨ha, by simpa using hs⟩, rfl⟩

theorem mem_exph_iff {g : MGraph} {k : Nat} :
    k ∈ explicit_hydrogen_keys g ↔ ∃ a, (k, a) ∈ g.atms ∧ a.sym = "H" := by
  unfold explicit_hydrogen_keys
  constructor
  · intro h
    rcases List.mem_map.mp h with ⟨p, hp, hpk⟩
    have hp2 := List.mem_filter.mp hp
    refine ⟨p.2, ?_, by simpa using hp2.2⟩
    rw [← hpk]
    exact hp2.1
  · rintro ⟨a, ha, hs⟩
    exact List.mem_map.mpr ⟨(k, a),
      List.mem_filter.mpr ⟨ha, by simpa using hs⟩, rfl⟩

theorem backbone_exph_disjoint {g : MGraph} (hnd : (atomKeys g).Nodup)
    {k : Nat} (hb : k ∈ backbone_keys g) (he : k ∈ explicit_hydrogen_keys g) :
    False := by
  rcases mem_backbone_iff.mp hb with ⟨a, ha, hs⟩
  rcases mem_exph_iff.mp he with ⟨a2, ha2, hs2⟩
  exact hs (nodup_value_unique hnd ha ha2 ▸ hs2)

theorem mem_atomKeys_iff {g : MGraph} {k : Nat} :
    k ∈ atomKeys g ↔ ∃ a, (k, a) ∈ g.atms := by
  unfold atomKeys
  constructor
  · intro h
    rcases List.mem_map.mp h with ⟨p, hp, hpk⟩
    exact ⟨p.2, by rw [← hpk]; exact hp⟩
  · rintro ⟨a, ha⟩
    exact List.mem_map.mpr ⟨(k, a), ha, rfl⟩

theorem isHyd_false_of_backbone {g : MGraph} (hnd : (atomKeys g).Nodup)
    {k : Nat} (hb : k ∈ backbone_keys g) : isHyd g k = false := by
  rcases mem_backbone_iff.mp hb with ⟨a, ha, hs⟩
  unfold isHyd atomAttr
  rw [lookup_eq_some_of_mem hnd ha]
  simpa using hs

theorem mem_neighbor_iff {g : MGraph} {k j : Nat} :
    j ∈ atom_neighbor_keys g k ↔
      ∃ p ∈ g.bnds, (p.1.1 = k ∧ j = p.1.2) ∨
        (p.1.1 ≠ k ∧ p.1.2 = k ∧ j = p.1.1) := by
  unfold atom_neighbor_keys
  rw [List.mem_insertionSort, List.mem_filterMap]
  constructor
  · rintro ⟨p, hp, hf⟩
    refine ⟨p, hp, ?_⟩
    by_cases h1 : p.1.1 = k
    · rw [if_pos h1] at hf
      exact Or.inl ⟨h1, (Option.some_injective _ hf).symm⟩
    · rw [if_neg h1] at hf
      by_cases h2 : p.1.2 = k
      · rw [if_pos h2] at hf
        exact Or.inr ⟨h1, h2, (Option.some_injective _ hf).symm⟩
      · rw [if_neg h2] at hf
        exact absurd hf (by simp)
  · rintro ⟨p, hp, hcase⟩
    refine ⟨p, hp, ?_⟩
    rcases hcase with ⟨h1, hj⟩ | ⟨h1, h2, hj⟩
    · rw [if_pos h1, hj]
    · rw [if_neg h1, if_pos h2, hj]

theorem neighbor_bond_mem {g : MGraph}
    (hok : ∀ p ∈ g.bnds, p.1.1 < p.1.2 ∧ p.1.1 ∈ atomKeys g ∧
      p.1.2 ∈ atomKeys g)
    {k j : Nat} (h : j ∈ atom_neighbor_keys g k) :
    bkey k j ∈ bondKeys g ∧ j ∈ atomKeys g := by
  rcases mem_neighbor_iff.mp h with ⟨p, hp, hcase⟩
  have hokp := hok p hp
  rcases hcase with ⟨h1, hj⟩ | ⟨h1, h2, hj⟩
  · have hklt : k < j := by
      rw [← h1, hj]
      exact hokp.1
    have hb : bkey k j = p.1 := by
      unfold bkey
      rw [if_pos (Nat.le_of_lt hklt), ← h1, hj]
    exact ⟨hb ▸ List.mem_map.mpr ⟨p, hp, rfl⟩, hj ▸ hokp.2.2⟩
  · have hjlt : j < k := by
      rw [← h2, hj]
      exact hokp.1
    have hb : bkey k j = p.1 := by
      unfold bkey
      rw [if_neg (Nat.not_le_of_lt hjlt), ← h2, hj]
    exact ⟨hb ▸ List.mem_map.mpr ⟨p, hp, rfl⟩, hj ▸ hokp.2.1⟩

theorem priVecFold_mono {f : Nat → List Nat → Option (PV × List Nat)}
    (hf : ∀ a s v s2, f a s = some (v, s2) → s ⊆ s2) :
    ∀ (l seen : List Nat) (vs : List PV) (s2 : List Nat),
      priVecFold f l seen = some (vs, s2) → seen ⊆ s2 := by
  intro l
  induction l with
  | nil =>
    intro seen vs s2 h
    simp only [priVecFold, Option.some_inj] at h
    rw [show s2 = seen from (congrArg Prod.snd h).symm]
    exact fun x hx => hx
  | cons a rest ih =>
    intro seen vs s2 h
    simp only [priVecFold, Option.bind_eq_bind, Option.bind_eq_some] at h
    rcases h with ⟨r, hr, rr, hrr, he⟩
    have h1 := hf a seen r.1 r.2 (by rw [← hr])
    have h2 := ih r.2 rr.1 rr.2 (by rw [← hrr])
    have hs : s2 = rr.2 := (congrArg Prod.snd (Option.some_injective _ he)).symm
    rw [hs]
    exact fun x hx => h2 (h1 hx)

theorem priVecAux_mono (atmD : List (Nat × AtomAttrs))
    (bndD : List (BKey × BondAttrs)) (nbr : Nat → List Nat) :
    ∀ (fuel a1 a2 : Nat) (seen : List Nat) (v : PV) (s2 : List Nat),
      priVecAux atmD bndD nbr fuel a1 a2 seen = some (v, s2) → seen ⊆ s2 := by
  intro fuel
  induction fuel with
  | zero =>
    intro a1 a2 seen v s2 h
    simp [priVecAux] at h
  | succ n ih =>
    intro a1 a2 seen v s2 h
    simp only [priVecAux, Option.bind_eq_bind, Option.bind_eq_some] at h
    rcases h with ⟨bv, hbv, av, hav, h⟩
    by_cases hmem : a2 ∈ seen
    · rw [if_pos hmem] at h
      have hs : s2 = seen :=
        (congrArg Prod.snd (Option.some_injective _ h)).symm
      rw [hs]
      exact fun x hx => hx
    · rw [if_neg hmem] at h
      simp only [Option.bind_eq_some] at h
      rcases h with ⟨r, hr, he⟩
      have hs : s2 = r.2 :=
        (congrArg Prod.snd (Option.some_injective _ he)).symm
      have hsub2 : (if a2 ∈ (if a1 ∈ seen then seen else a1 :: seen) then
          (if a1 ∈ seen then seen else a1 :: seen) else
          a2 :: (if a1 ∈ seen then seen else a1 :: seen)) ⊆ r.2 :=
        priVecFold_mono (fun a s vv ss hh => ih a2 a s vv ss hh) _ _ r.1 r.2
          (by rw [← hr])
      rw [hs]
      intro x hx
      apply hsub2
      by_cases h1 : a1 ∈ seen
      · simp only [if_pos h1]
        by_cases h2 : a2 ∈ seen
        · rw [if_pos h2]; exact hx
        · rw [if_neg h2]; exact List.mem_cons_of_mem a2 hx
      · simp only [if_neg h1]
        by_cases h2 : a2 ∈ (a1 :: seen)
        · rw [if_pos h2]; exact List.mem_cons_of_mem a1 hx
        · rw [if_neg h2]
          exact List.mem_cons_of_mem a2 (List.mem_cons_of_mem a1 hx)

theorem priVecFold_isSome {f : Nat → List Nat → Option (PV × List Nat)}
    {P : Nat → Prop} {atkeys : List Nat} {n : Nat}
    (hmono : ∀ a s v s2, f a s = some (v, s2) → s ⊆ s2)
    (hsome : ∀ a s, P a →
      (atkeys.filter (fun k => k ∉ s)).length < n → (f a s).isSome) :
    ∀ (l seen : List Nat), (∀ a ∈ l, P a) →
      (atkeys.filter (fun k => k ∉ seen)).length < n →
      (priVecFold f l seen).isSome := by
  intro l
  induction l with
  | nil =>
    intro seen _ _
    simp [priVecFold]
  | cons a rest ih =>
    intro seen hP hb
    have h1 := hsome a seen (hP a (List.mem_cons_self a rest)) hb
    obtain ⟨r, hr⟩ := Option.isSome_iff_exists.mp h1
    have hsub := hmono a seen r.1 r.2 (by rw [hr])
    have hb2 : (atkeys.filter (fun k => k ∉ r.2)).length < n :=
      lt_of_le_of_lt (filter_unseen_mono hsub atkeys) hb
    have h2 := ih r.2 (fun x hx => hP x (List.mem_cons_of_mem a hx)) hb2
    obtain ⟨rr, hrr⟩ := Option.isSome_iff_exists.mp h2
    simp only [priVecFold, Option.bind_eq_bind]
    rw [hr]
    simp only [Option.some_bind]
    rw [hrr]
    rfl

theorem priVecAux_isSome (g : MGraph)
    (hok : ∀ p ∈ g.bnds, p.1.1 < p.1.2 ∧ p.1.1 ∈ atomKeys g ∧
      p.1.2 ∈ atomKeys g) :
    ∀ (fuel a1 a2 : Nat) (seen : List Nat),
      bkey a1 a2 ∈ bondKeys g → a2 ∈ atomKeys g →
      ((atomKeys g).filter (fun k => k ∉ seen)).length < fuel →
      (priVecAux g.atms g.bnds (atom_neighbor_keys g) fuel a1 a2
        seen).isSome := by
  intro fuel
  induction fuel with
  | zero =>
    intro a1 a2 seen _ _ hb
    exact absurd hb (Nat.not_lt_zero _)
  | succ n ih =>
    intro a1 a2 seen hbond hatm hb
    have hbv : (g.bnds.lookup (bkey a1 a2)).isSome :=
      (lookup_isSome_iff _ _).mpr hbond
    obtain ⟨bv, hbv2⟩ := Option.isSome_iff_exists.mp hbv
    have hav : (g.atms.lookup a2).isSome := (lookup_isSome_iff _ _).mpr hatm
    obtain ⟨av, hav2⟩ := Option.isSome_iff_exists.mp hav
    simp only [priVecAux, Option.bind_eq_bind]
    rw [hbv2, hav2]
    simp only [Option.some_bind]
    by_cases hmem : a2 ∈ seen
    · rw [if_pos hmem]
      rfl
    · rw [if_neg hmem]
      have hsub1 : seen ⊆ (if a1 ∈ seen then seen else a1 :: seen) := by
        by_cases h1 : a1 ∈ seen
        · rw [if_pos h1]
          exact fun x hx => hx
        · rw [if_neg h1]
          exact fun x hx => List.mem_cons_of_mem a1 hx
      have hsub2 : seen ⊆ (if a2 ∈ (if a1 ∈ seen then seen else a1 :: seen)
          then (if a1 ∈ seen then seen else a1 :: seen)
          else a2 :: (if a1 ∈ seen then seen else a1 :: seen)) := by
        by_cases h2 : a2 ∈ (if a1 ∈ seen then seen else a1 :: seen)
        · rw [if_pos h2]
          exact hsub1
        · rw [if_neg h2]
          exact fun x hx => List.mem_cons_of_mem a2 (hsub1 hx)
      have ha2in : a2 ∈ (if a2 ∈ (if a1 ∈ seen then seen else a1 :: seen)
          then (if a1 ∈ seen then seen else a1 :: seen)
          else a2 :: (if a1 ∈ seen then seen else a1 :: seen)) := by
        by_cases h2 : a2 ∈ (if a1 ∈ seen then seen else a1 :: seen)
        · rw [if_pos h2]
          exact h2
        · rw [if_neg h2]
          exact List.mem_cons_self a2 _
      have hstrict := filter_unseen_strict hsub2 hmem ha2in (atomKeys g) hatm
      have hb2 : ((atomKeys g).filter (fun k =>
          k ∉ (if a2 ∈ (if a1 ∈ seen then seen else a1 :: seen)
            then (if a1 ∈ seen then seen else a1 :: seen)
            else a2 :: (if a1 ∈ seen then seen else a1 :: seen)))).length <
          n :=
        Nat.lt_of_lt_of_le hstrict (Nat.lt_succ_iff.mp hb)
      have hPall : ∀ a3 ∈ (atom_neighbor_keys g a2).filter
          (fun x => x ≠ a1),
          bkey a2 a3 ∈ bondKeys g ∧ a3 ∈ atomKeys g := by
        intro a3 ha3
        exact neighbor_bond_mem hok (List.mem_of_mem_filter ha3)
      have hfold := @priVecFold_isSome _
        (fun a3 => bkey a2 a3 ∈ bondKeys g ∧ a3 ∈ atomKeys g)
        (atomKeys g) n
        (fun a s v s2 h =>
          priVecAux_mono g.atms g.bnds (atom_neighbor_keys g) n a2 a s v s2 h)
        (fun a s hP hbs => ih a2 a s hP.1 hP.2 hbs)
        ((atom_neighbor_keys g a2).filter (fun x => x ≠ a1)) _ hPall hb2
      obtain ⟨r, hr⟩ := Option.isSome_iff_exists.mp hfold
      rw [hr]
      rfl

theorem backbone_mem_implicit {g : MGraph} {k : Nat}
    (hb : k ∈ backbone_keys g) : k ∈ atomKeys (implicitG g) := by
  rcases mem_backbone_iff.mp hb with ⟨a, ha, hs⟩
  have hmem : (k, AtomAttrs.mk a.sym (a.hyd + (g.bnds.countP (fun q =>
      (q.1.1 = k ∧ isHyd g q.1.2) ∨ (q.1.2 = k ∧ isHyd g q.1.1)))) a.par) ∈
      (implicitG g).atms := by
    unfold implicitG
    refine List.mem_filterMap.mpr ⟨(k, a), ha, ?_⟩
    rw [if_neg hs]
  exact List.mem_map.mpr ⟨_, hmem, rfl⟩

theorem implicit_bonds_sub (g : MGraph) :
    bondKeys (implicitG g) ⊆ bondKeys g := by
  intro bk hbk
  rcases List.mem_map.mp hbk with ⟨p, hp, hpk⟩
  exact List.mem_map.mpr ⟨p, List.mem_of_mem_filter hp, hpk⟩

theorem bond_mem_implicit {g : MGraph} {a b : Nat}
    (hnd : (atomKeys g).Nodup) (ha : a ∈ backbone_keys g)
    (hb : b ∈ backbone_keys g) (hbond : bkey a b ∈ bondKeys g) :
    bkey a b ∈ bondKeys (implicitG g) := by
  rcases List.mem_map.mp hbond with ⟨p, hp, hpk⟩
  refine List.mem_map.mpr ⟨p, ?_, hpk⟩
  refine List.mem_filter.mpr ⟨hp, ?_⟩
  have hha := isHyd_false_of_backbone hnd ha
  have hhb := isHyd_false_of_backbone hnd hb
  have hends : (p.1.1 = a ∧ p.1.2 = b) ∨ (p.1.1 = b ∧ p.1.2 = a) := by
    rw [hpk]
    unfold bkey
    by_cases hab : a ≤ b
    · rw [if_pos hab]
      exact Or.inl ⟨rfl, rfl⟩
    · rw [if_neg hab]
      exact Or.inr ⟨rfl, rfl⟩
  rcases hends with ⟨h1, h2⟩ | ⟨h1, h2⟩ <;>
    simp [h1, h2, hha, hhb]

theorem isHyd_false_atom_mem {g : MGraph} {k : Nat}
    (hk : k ∈ atomKeys g) (hh : isHyd g k = false) :
    k ∈ atomKeys (implicitG g) := by
  have hks : (g.atms.lookup k).isSome = true := (lookup_isSome_iff _ _).mpr hk
  obtain ⟨a, hla⟩ := Option.isSome_iff_exists.mp hks
  have hmem := mem_of_lookup_eq_some hla
  have hsym : a.sym ≠ "H" := by
    unfold isHyd atomAttr at hh
    rw [hla] at hh
    simpa using hh
  have hmem2 : (k, AtomAttrs.mk a.sym (a.hyd + (g.bnds.countP (fun q =>
      (q.1.1 = k ∧ isHyd g q.1.2) ∨ (q.1.2 = k ∧ isHyd g q.1.1)))) a.par) ∈
      (implicitG g).atms := by
    unfold implicitG
    refine List.mem_filterMap.mpr ⟨(k, a), hmem, ?_⟩
    rw [if_neg hsym]
  exact List.mem_map.mpr ⟨_, hmem2, rfl⟩

theorem implicit_ok {g : MGraph} (hwf : WF g) :
    ∀ p ∈ (implicitG g).bnds, p.1.1 < p.1.2 ∧
      p.1.1 ∈ atomKeys (implicitG g) ∧ p.1.2 ∈ atomKeys (implicitG g) := by
  intro p hp
  have hpg : p ∈ g.bnds := List.mem_of_mem_filter hp
  have hpred := List.of_mem_filter hp
  simp only [Bool.and_eq_true, decide_eq_true_eq] at hpred
  have hokp := hwf.2.2 p hpg
  refine ⟨hokp.1, ?_, ?_⟩
  · exact isHyd_false_atom_mem hokp.2.1
      (by simpa using Bool.of_not_eq_true (by simpa using hpred.1))
  · exact isHyd_false_atom_mem hokp.2.2
      (by simpa using Bool.of_not_eq_true (by simpa using hpred.2))

theorem filter_not_mem_nil (l : List Nat) :
    l.filter (fun k => k ∉ ([] : List Nat)) = l :=
  List.filter_eq_self.mpr (fun a _ => by simp)

theorem spv_backbone_aux (g : MGraph) (hwf : WF g) (a b : Nat)
    (ha : a ∈ backbone_keys g) (hb : b ∈ backbone_keys g)
    (hbond : bkey a b ∈ bondKeys g) :
    (stereo_priority_vector g a b).isSome := by
  unfold stereo_priority_vector
  rw [if_pos hb]
  have hbko : bkey a b ∈ bondKeys (implicitG g) :=
    bond_mem_implicit hwf.1 ha hb hbond
  rw [if_pos ⟨ha, hbko⟩]
  have hbound : ((atomKeys (implicitG g)).filter
      (fun k => k ∉ ([] : List Nat))).length <
      (implicitG g).atms.length + 1 := by
    rw [filter_not_mem_nil]
    unfold atomKeys
    rw [List.length_map]
    exact Nat.lt_succ_self _
  have haux := priVecAux_isSome (implicitG g) (implicit_ok hwf)
    ((implicitG g).atms.length + 1) a b [] hbko (backbone_mem_implicit hb)
    hbound
  obtain ⟨r, hr⟩ := Option.isSome_iff_exists.mp haux
  rw [hr]
  rfl

/-- C3: for every well-formed graph, including graphs with rings, and every
bonded backbone pair, stereo_priority_vector terminates with a result: the
traversal with the seen-key list threaded through (shared across sibling
branches) and cycle truncation never exhausts the fuel of one more than the
atom count. -/
theorem stereo_priority_vector_total (g : MGraph) (hwf : WF g) (a b : Nat)
    (ha : a ∈ backbone_keys g) (hb : b ∈ backbone_keys g)
    (hbond : bkey a b ∈ bondKeys g) :
    (stereo_priority_vector g a b).isSome :=
  spv_backbone_aux g hwf a b ha hb hbond

/-- Cyclopropane-like all-carbon three-ring used for the C3 witness. -/
def gRing3 : MGraph := MGraph.mk
  [(0, AtomAttrs.mk "C" 2 none), (1, AtomAttrs.mk "C" 2 none),
    (2, AtomAttrs.mk "C" 2 none)]
  [((0, 1), BondAttrs.mk 1 none), ((0, 2), BondAttrs.mk 1 none),
    ((1, 2), BondAttrs.mk 1 none)]

/-- Closed instance of C3 on a ring graph. -/
theorem stereo_priority_vector_total_witness :
    (stereo_priority_vector gRing3 0 1).isSome :=
  stereo_priority_vector_total gRing3 (by decide) 0 1 (by decide) (by decide)
    (by decide)

/-- C9 (amended): on a well-formed graph, stereo_priority_vector returns a
value exactly when the two keys are bonded and either the neighbor is an
explicit hydrogen or both keys are backbone keys, and in the bonded
explicit-hydrogen case the returned value is the empty vector; in every
other case, including the case the claim omits, in which the atom key is an
explicit hydrogen while the neighbor is a backbone key, it raises. -/
theorem stereo_priority_vector_some_iff (g : MGraph) (hwf : WF g)
    (a b : Nat) :
    ((stereo_priority_vector g a b).isSome ↔
      bkey a b ∈ bondKeys g ∧
        (b ∈ explicit_hydrogen_keys g ∨
          (a ∈ backbone_keys g ∧ b ∈ backbone_keys g))) ∧
      (bkey a b ∈ bondKeys g → b ∈ explicit_hydrogen_keys g →
        stereo_priority_vector g a b = some PV.empty) := by
  refine ⟨?_, ?_⟩
  swap
  · intro hbond hexp
    have hbb : b ∉ backbone_keys g :=
      fun hc => backbone_exph_disjoint hwf.1 hc hexp
    unfold stereo_priority_vector
    rw [if_neg hbb, if_pos ⟨hexp, hbond⟩]
  constructor
  · intro hs
    unfold stereo_priority_vector at hs
    by_cases hbb : b ∈ backbone_keys g
    · rw [if_pos hbb] at hs
      by_cases hg : a ∈ backbone_keys g ∧ bkey a b ∈ bondKeys (implicitG g)
      · exact ⟨implicit_bonds_sub g hg.2, Or.inr ⟨hg.1, hbb⟩⟩
      · rw [if_neg hg] at hs
        exact absurd hs (by simp)
    · rw [if_neg hbb] at hs
      by_cases hg : b ∈ explicit_hydrogen_keys g ∧ bkey a b ∈ bondKeys g
      · exact ⟨hg.2, Or.inl hg.1⟩
      · rw [if_neg hg] at hs
        exact absurd hs (by simp)
  · rintro ⟨hbond, hcase⟩
    rcases hcase with hexp | ⟨hab, hbb⟩
    · have hbb : b ∉ backbone_keys g :=
        fun hc => backbone_exph_disjoint hwf.1 hc hexp
      unfold stereo_priority_vector
      rw [if_neg hbb, if_pos ⟨hexp, hbond⟩]
      rfl
    · exact spv_backbone_aux g hwf a b hab hbb hbond

/-- Methane fragment with one explicit hydrogen, used for C9. -/
def gCHW : MGraph := MGraph.mk
  [(0, AtomAttrs.mk "C" 0 none), (1, AtomAttrs.mk "H" 0 none)]
  [((0, 1), BondAttrs.mk 1 none)]

/-- C9 counterexample: with the explicit hydrogen as atom key and the carbon
as neighbor, the pair is bonded and the neighbor is a backbone key, so
neither failure condition of the claim holds, yet the computation raises
(the source also asserts that the atom key is a backbone key). -/
theorem stereo_priority_vector_raises_cex :
    stereo_priority_vector gCHW 1 0 = none ∧
      bkey 1 0 ∈ bondKeys gCHW ∧ 0 ∈ backbone_keys gCHW := by
  decide

/-- Closed instance of the amended C9 at the explicit-hydrogen neighbor. -/
theorem stereo_priority_vector_some_iff_witness :
    ((stereo_priority_vector gCHW 0 1).isSome ↔
      bkey 0 1 ∈ bondKeys gCHW ∧
        (1 ∈ explicit_hydrogen_keys gCHW ∨
          (0 ∈ backbone_keys gCHW ∧ 1 ∈ backbone_keys gCHW))) ∧
      (bkey 0 1 ∈ bondKeys gCHW → 1 ∈ explicit_hydrogen_keys gCHW →
        stereo_priority_vector gCHW 0 1 = some PV.empty) :=
  stereo_priority_vector_some_iff gCHW (by decide) 0 1

theorem oflat_mem {f : α → Option (List α)} :
    ∀ {l r : List α}, oflat f l = some r →
      ∀ y, y ∈ r ↔ ∃ x ∈ l, ∃ lx, f x = some lx ∧ y ∈ lx := by
  intro l
  induction l with
  | nil =>
    intro r h y
    simp only [oflat, Option.some_inj] at h
    subst h
    simp
  | cons a rest ih =>
    intro r h y
    simp only [oflat, Option.bind_eq_bind, Option.bind_eq_some,
      Option.some_inj] at h
    rcases h with ⟨bs, hbs, rrest, hrrest, he⟩
    subst he
    rw [List.mem_append, ih hrrest y]
    constructor
    · rintro (hy | ⟨x, hx, lx, hlx, hylx⟩)
      · exact ⟨a, List.mem_cons_self a rest, bs, hbs, hy⟩
      · exact ⟨x, List.mem_cons_of_mem a hx, lx, hlx, hylx⟩
    · rintro ⟨x, hx, lx, hlx, hylx⟩
      rcases List.mem_cons.mp hx with hx2 | hx2
      · subst hx2
        rw [hbs] at hlx
        exact Or.inl ((Option.some_injective _ hlx) ▸ hylx)
      · exact Or.inr ⟨x, hx2, lx, hlx, hylx⟩

theorem oflat_length_ge {f : α → Option (List α)} :
    ∀ {l r : List α}, oflat f l = some r →
      (∀ x ∈ l, ∀ lx, f x = some lx → 0 < lx.length) →
      l.length ≤ r.length := by
  intro l
  induction l with
  | nil => intro r _ _; simp
  | cons a rest ih =>
    intro r h hpos
    simp only [oflat, Option.bind_eq_bind, Option.bind_eq_some,
      Option.some_inj] at h
    rcases h with ⟨bs, hbs, rrest, hrrest, he⟩
    subst he
    rw [List.length_append, List.length_cons]
    have h1 := hpos a (List.mem_cons_self a rest) bs hbs
    have h2 := ih hrrest (fun x hx lx hlx =>
      hpos x (List.mem_cons_of_mem a hx) lx hlx)
    omega

theorem oflat_singletons {f : α → Option (List α)} :
    ∀ {l r : List α}, oflat f l = some r →
      (∀ x ∈ l, ∀ lx, f x = some lx → 0 < lx.length) →
      r.length ≤ l.length →
      List.Forall₂ (fun x y => f x = some [y]) l r := by
  intro l
  induction l with
  | nil =>
    intro r h _ _
    simp only [oflat, Option.some_inj] at h
    subst h
    exact List.Forall₂.nil
  | cons a rest ih =>
    intro r h hpos hle
    simp only [oflat, Option.bind_eq_bind, Option.bind_eq_some,
      Option.some_inj] at h
    rcases h with ⟨bs, hbs, rrest, hrrest, he⟩
    subst he
    have h1 := hpos a (List.mem_cons_self a rest) bs hbs
    have h2 := oflat_length_ge hrrest (fun x hx lx hlx =>
      hpos x (List.mem_cons_of_mem a hx) lx hlx)
    rw [List.length_append, List.length_cons] at hle
    have hbs1 : bs.length = 1 := by omega
    obtain ⟨y, hy⟩ := List.length_eq_one.mp hbs1
    subst hy
    have hbsy : (1 : Nat) = ([y] : List α).length := rfl
    refine List.Forall₂.cons (by rw [hbs]) ?_
    refine ih hrrest (fun x hx lx hlx =>
      hpos x (List.mem_cons_of_mem a hx) lx hlx) ?_
    rw [← hbsy] at hle
    show rrest.length ≤ rest.length
    omega

theorem forall₂_same {R : α → α → Prop} :
    ∀ {l : List α}, List.Forall₂ R l l → ∀ x ∈ l, R x x := by
  intro l
  induction l with
  | nil => intro _ x hx; simp at hx
  | cons a rest ih =>
    intro h x hx
    cases h with
    | cons ha hrest =>
      rcases List.mem_cons.mp hx with hx2 | hx2
      · exact hx2 ▸ ha
      · exact ih hrest x hx2

theorem forall₂_eq {l m : List α}
    (h : List.Forall₂ (fun x y : α => x = y) l m) : l = m := by
  induction h with
  | nil => rfl
  | cons ha _ ih => rw [ha, ih]

theorem boolCombos_length : ∀ n, (boolCombos n).length = 2 ^ n
  | 0 => rfl
  | n + 1 => by
    simp only [boolCombos, List.length_append, List.length_map,
      boolCombos_length n]
    omega

theorem set_atom_nil (g : MGraph) : set_atom_stereo_parities g [] = g := by
  unfold set_atom_stereo_parities
  have h : g.atms.map (fun p : Nat × AtomAttrs =>
      match List.lookup p.1 ([] : List (Nat × Bool)) with
      | some b => (p.1, { p.2 with par := some b })
      | none => p) = g.atms := List.map_id g.atms
  rw [h]

theorem set_bond_nil (g : MGraph) : set_bond_stereo_parities g [] = g := by
  unfold set_bond_stereo_parities
  have h : g.bnds.map (fun p : BKey × BondAttrs =>
      match List.lookup p.1 ([] : List (BKey × Bool)) with
      | some b => (p.1, { p.2 with par := some b })
      | none => p) = g.bnds := List.map_id g.bnds
  rw [h]

theorem expandAtom_pos {g : MGraph} {lx : List MGraph}
    (h : expandAtomStereo g = some lx) : 0 < lx.length := by
  simp only [expandAtomStereo, Option.bind_eq_bind, Option.bind_eq_some,
    Option.some_inj] at h
  rcases h with ⟨ks, _, he⟩
  subst he
  rw [List.length_map, boolCombos_length]
  exact Nat.pos_pow_of_pos _ (by omega)

theorem expandBond_pos {O : ResOracle} {g : MGraph} {lx : List MGraph}
    (h : expandBondStereo O g = some lx) : 0 < lx.length := by
  simp only [expandBondStereo, Option.bind_eq_bind, Option.bind_eq_some,
    Option.some_inj] at h
  rcases h with ⟨ks, _, he⟩
  subst he
  rw [List.length_map, boolCombos_length]
  exact Nat.pos_pow_of_pos _ (by omega)

theorem expandAtom_singleton {g y : MGraph}
    (h : expandAtomStereo g = some [y]) :
    stereogenic_atom_keys g = some [] ∧ y = g := by
  simp only [expandAtomStereo, Option.bind_eq_bind, Option.bind_eq_some,
    Option.some_inj] at h
  rcases h with ⟨ks, hks, he⟩
  have hlen : (boolCombos ks.length).length = 1 :=
    by rw [← List.length_map (boolCombos ks.length)
      (fun vs => set_atom_stereo_parities g (ks.zip vs)), he]; rfl
  rw [boolCombos_length] at hlen
  have hn : ks.length = 0 := by
    by_contra hc
    have : 2 ≤ 2 ^ ks.length := Nat.le_self_pow hc 2
    omega
  have hks0 : ks = [] := List.length_eq_zero.mp hn
  subst hks0
  refine ⟨hks, ?_⟩
  simp only [List.length_nil] at he
  have hbc : boolCombos 0 = [[]] := rfl
  rw [hbc] at he
  simp only [List.map_cons, List.map_nil, List.zip_nil_left] at he
  have hhd := List.head_eq_of_cons_eq he.symm
  rw [hhd, set_atom_nil]

theorem expandBond_singleton {O : ResOracle} {g y : MGraph}
    (h : expandBondStereo O g = some [y]) :
    stereogenic_bond_keys O g = some [] ∧ y = g := by
  simp only [expandBondStereo, Option.bind_eq_bind, Option.bind_eq_some,
    Option.some_inj] at h
  rcases h with ⟨ks, hks, he⟩
  have hlen : (boolCombos ks.length).length = 1 :=
    by rw [← List.length_map (boolCombos ks.length)
      (fun vs => set_bond_stereo_parities g (ks.zip vs)), he]; rfl
  rw [boolCombos_length] at hlen
  have hn : ks.length = 0 := by
    by_contra hc
    have : 2 ≤ 2 ^ ks.length := Nat.le_self_pow hc 2
    omega
  have hks0 : ks = [] := List.length_eq_zero.mp hn
  subst hks0
  refine ⟨hks, ?_⟩
  simp only [List.length_nil] at he
  have hbc : boolCombos 0 = [[]] := rfl
  rw [hbc] at he
  simp only [List.map_cons, List.map_nil, List.zip_nil_left] at he
  have hhd := List.head_eq_of_cons_eq he.symm
  rw [hhd, set_bond_nil]

theorem stereomersLoop_fix (O : ResOracle) :
    ∀ (fuel : Nat) (l r : List MGraph), stereomersLoop O fuel l = some r →
      expandAll O r = some r := by
  intro fuel
  induction fuel with
  | zero =>
    intro l r h
    simp [stereomersLoop] at h
  | succ n ih =>
    intro l r h
    simp only [stereomersLoop, Option.bind_eq_bind, Option.bind_eq_some] at h
    rcases h with ⟨l2, hl2, he⟩
    by_cases heq : l2 = l
    · rw [if_pos heq] at he
      have hr : r = l := (Option.some_injective _ he).symm
      subst hr
      rw [hl2, heq]
    · rw [if_neg heq] at he
      exact ih l2 r he

theorem expandAll_fix_elem (O : ResOracle) {l : List MGraph}
    (h : expandAll O l = some l) :
    ∀ g ∈ l, stereogenic_atom_keys g = some [] ∧
      stereogenic_bond_keys O g = some [] := by
  simp only [expandAll, Option.bind_eq_bind, Option.bind_eq_some] at h
  rcases h with ⟨t, ht, hb⟩
  have hlt : l.length ≤ t.length :=
    oflat_length_ge ht (fun x _ lx hlx => expandAtom_pos hlx)
  have htl : t.length ≤ l.length :=
    oflat_length_ge hb (fun x _ lx hlx => expandBond_pos hlx)
  have hfa := oflat_singletons ht
    (fun x _ lx hlx => expandAtom_pos hlx) (le_trans htl (le_refl _))
  have hfb := oflat_singletons hb
    (fun x _ lx hlx => expandBond_pos hlx) (le_trans hlt (le_refl _))
  have htleq : t = l := by
    have := List.Forall₂.imp
      (fun {x y} (hxy : expandAtomStereo x = some [y]) =>
        ((expandAtom_singleton hxy).2).symm) hfa
    exact (forall₂_eq this).symm
  subst htleq
  intro g hg
  have h1 := forall₂_same hfa g hg
  have h2 := forall₂_same hfb g hg
  exact ⟨(expandAtom_singleton h1).1, (expandBond_singleton h2).1⟩

/-- C10: every graph produced by stereomers is fully resolved: both its
stereogenic atom-key set and its stereogenic bond-key set are empty, because
the loop only stops when a full atom and bond pass leaves the working set
unchanged. -/
theorem stereomers_fully_resolved (O : ResOracle) (g : MGraph)
    (L : List MGraph) (h : stereomers O g = some L) :
    ∀ x ∈ L, stereogenic_atom_keys x = some [] ∧
      stereogenic_bond_keys O x = some [] := by
  intro x hx
  simp only [stereomers, Option.bind_eq_bind, Option.bind_eq_some,
    Option.some_inj] at h
  rcases h with ⟨res, hres, hL⟩
  have hfix := stereomersLoop_fix O _ _ res hres
  have hxres : x ∈ res := by
    rw [← hL] at hx
    exact (List.perm_insertionSort frozenLe res).mem_iff.mp hx
  exact expandAll_fix_elem O hfix x hxres

/-- Closed instance of C10: both stereomers of the chiral graph are fully
resolved. -/
theorem stereomers_fully_resolved_witness :
    stereogenic_atom_keys gCH4W = some [] ∧
      stereogenic_bond_keys oracleNone gCH4W = some [] :=
  stereomers_fully_resolved oracleNone gCH4W [gCH4W] (by decide) gCH4W
    (by decide)

theorem lookup_setParA (d : List (Nat × Bool)) :
    ∀ (l : List (Nat × AtomAttrs)) (k : Nat),
      ((l.map (fun p =>
        match d.lookup p.1 with
        | some b => (p.1, { p.2 with par := some b })
        | none => p)).lookup k).map AtomAttrs.par =
      ((l.lookup k).map AtomAttrs.par).map (fun op =>
        match d.lookup k with
        | some b => some b
        | none => op)
  | [], k => rfl
  | p :: rest, k => by
    by_cases hk : k = p.1
    · subst hk
      cases hd : d.lookup p.1 with
      | some b =>
        simp only [List.map_cons, hd, List.lookup, beq_self_eq_true,
          Option.map_some]
        rfl
      | none =>
        simp only [List.map_cons, hd, List.lookup, beq_self_eq_true,
          Option.map_some]
        rfl
    · have hne : (k == p.1) = false := beq_false_of_ne hk
      cases hd : d.lookup p.1 with
      | some b =>
        simp only [List.map_cons, hd, List.lookup, hne]
        exact lookup_setParA d rest k
      | none =>
        simp only [List.map_cons, hd, List.lookup, hne]
        exact lookup_setParA d rest k

theorem atomParity_set_atom (g : MGraph) (d : List (Nat × Bool)) (k : Nat) :
    atomParity (set_atom_stereo_parities g d) k =
      (atomParity g k).map (fun op =>
        match d.lookup k with
        | some b => some b
        | none => op) :=
  lookup_setParA d g.atms k

theorem lookup_setParB (d : List (BKey × Bool)) :
    ∀ (l : List (BKey × BondAttrs)) (bk : BKey),
      ((l.map (fun p =>
        match d.lookup p.1 with
        | some b => (p.1, { p.2 with par := some b })
        | none => p)).lookup bk).map BondAttrs.par =
      ((l.lookup bk).map BondAttrs.par).map (fun op =>
        match d.lookup bk with
        | some b => some b
        | none => op)
  | [], bk => rfl
  | p :: rest, bk => by
    by_cases hk : bk = p.1
    · subst hk
      cases hd : d.lookup p.1 with
      | some b =>
        simp only [List.map_cons, hd, List.lookup, beq_self_eq_true,
          Option.map_some]
        rfl
      | none =>
        simp only [List.map_cons, hd, List.lookup, beq_self_eq_true,
          Option.map_some]
        rfl
    · have hne : (bk == p.1) = false := beq_false_of_ne hk
      cases hd : d.lookup p.1 with
      | some b =>
        simp only [List.map_cons, hd, List.lookup, hne]
        exact lookup_setParB d rest bk
      | none =>
        simp only [List.map_cons, hd, List.lookup, hne]
        exact lookup_setParB d rest bk

theorem bondParity_set_bond (g : MGraph) (d : List (BKey × Bool)) (bk : BKey) :
    bondParity (set_bond_stereo_parities g d) bk =
      (bondParity g bk).map (fun op =>
        match d.lookup bk with
        | some b => some b
        | none => op) :=
  lookup_setParB d g.bnds bk

theorem atomParity_set_bond (g : MGraph) (d : List (BKey × Bool)) (k : Nat) :
    atomParity (set_bond_stereo_parities g d) k = atomParity g k := rfl

theorem bondParity_set_atom (g : MGraph) (d : List (Nat × Bool)) (bk : BKey) :
    bondParity (set_atom_stereo_parities g d) bk = bondParity g bk := rfl

theorem atomKeys_set_atom (g : MGraph) (d : List (Nat × Bool)) :
    atomKeys (set_atom_stereo_parities g d) = atomKeys g := by
  unfold atomKeys set_atom_stereo_parities
  rw [List.map_map]
  refine List.map_congr_left ?_
  intro p _
  simp only [Function.comp]
  cases d.lookup p.1 <;> rfl

theorem bondKeys_set_bond (g : MGraph) (d : List (BKey × Bool)) :
    bondKeys (set_bond_stereo_parities g d) = bondKeys g := by
  unfold bondKeys set_bond_stereo_parities
  rw [List.map_map]
  refine List.map_congr_left ?_
  intro p _
  simp only [Function.comp]
  cases d.lookup p.1 <;> rfl

theorem atomKeys_set_bond (g : MGraph) (d : List (BKey × Bool)) :
    atomKeys (set_bond_stereo_parities g d) = atomKeys g := rfl

theorem bondKeys_set_atom (g : MGraph) (d : List (Nat × Bool)) :
    bondKeys (set_atom_stereo_parities g d) = bondKeys g := rfl

theorem lookup_zip_none [BEq α] [LawfulBEq α] {ks : List α} {vs : List β} {k : α}
    (hk : k ∉ ks) : (ks.zip vs).lookup k = none := by
  induction ks generalizing vs with
  | nil => simp [List.lookup]
  | cons a rest ih =>
    cases vs with
    | nil => simp [List.lookup]
    | cons v vrest =>
      have hka : k ≠ a := fun hc => hk (hc ▸ List.mem_cons_self a rest)
      have hne : (k == a) = false := beq_false_of_ne hka
      simp only [List.zip_cons_cons, List.lookup, hne]
      exact ih (fun hc => hk (List.mem_cons_of_mem a hc))

theorem zip_lookup_conflict [BEq α] [LawfulBEq α] {ks : List α} :
    ∀ {v v2 : List Bool}, ks.Nodup → v.length = ks.length →
      v2.length = ks.length → v ≠ v2 →
      ∃ k b b2, (ks.zip v).lookup k = some b ∧
        (ks.zip v2).lookup k = some b2 ∧ b ≠ b2 ∧ k ∈ ks := by
  induction ks with
  | nil =>
    intro v v2 _ hv hv2 hne
    rw [List.length_eq_zero.mp hv, List.length_eq_zero.mp hv2] at hne
    exact absurd rfl hne
  | cons a rest ih =>
    intro v v2 hnd hv hv2 hne
    cases v with
    | nil => simp at hv
    | cons b bs =>
      cases v2 with
      | nil => simp at hv2
      | cons b2 bs2 =>
        rw [List.nodup_cons] at hnd
        by_cases hb : b = b2
        · subst hb
          have hbs : bs ≠ bs2 := fun hc => hne (by rw [hc])
          rcases ih hnd.2 (by simpa using hv) (by simpa using hv2) hbs with
            ⟨k, c, c2, hc, hc2, hcne, hkmem⟩
          have hka : k ≠ a := fun hc3 => hnd.1 (hc3 ▸ hkmem)
          have hne2 : (k == a) = false := beq_false_of_ne hka
          refine ⟨k, c, c2, ?_, ?_, hcne, List.mem_cons_of_mem a hkmem⟩
          · simp only [List.zip_cons_cons, List.lookup, hne2]
            exact hc
          · simp only [List.zip_cons_cons, List.lookup, hne2]
            exact hc2
        · refine ⟨a, b, b2, ?_, ?_, hb, List.mem_cons_self a rest⟩
          · simp [List.lookup]
          · simp [List.lookup]

theorem boolCombos_mem_length : ∀ n, ∀ v ∈ boolCombos n, v.length = n := by
  intro n
  induction n with
  | zero =>
    intro v hv
    simp only [boolCombos, List.mem_singleton] at hv
    rw [hv]
    rfl
  | succ m ih =>
    intro v hv
    simp only [boolCombos, List.mem_append, List.mem_map] at hv
    rcases hv with ⟨t, ht, he⟩ | ⟨t, ht, he⟩ <;>
      rw [← he] <;> simp [ih t ht]

theorem boolCombos_nodup : ∀ n, (boolCombos n).Nodup := by
  intro n
  induction n with
  | zero => simp [boolCombos]
  | succ m ih =>
    simp only [boolCombos]
    rw [List.nodup_append]
    refine ⟨List.Nodup.map (fun x y hxy => by simpa using hxy) ih,
      List.Nodup.map (fun x y hxy => by simpa using hxy) ih, ?_⟩
    intro v hv hv2
    rcases List.mem_map.mp hv with ⟨t, _, he⟩
    rcases List.mem_map.mp hv2 with ⟨t2, _, he2⟩
    rw [← he] at he2
    exact absurd (List.head_eq_of_cons_eq he2) (by decide)

/-- Two graphs conflict when some key is assigned in both with opposite
parities; conflicting graphs stay distinct under every further parity
assignment, which is the invariant behind deduplication. -/
def Conflict (x y : MGraph) : Prop :=
  (∃ k b b2, atomParity x k = some (some b) ∧
    atomParity y k = some (some b2) ∧ b ≠ b2) ∨
  (∃ bk b b2, bondParity x bk = some (some b) ∧
    bondParity y bk = some (some b2) ∧ b ≠ b2)

theorem conflict_ne {x y : MGraph} (h : Conflict x y) : x ≠ y := by
  intro he
  subst he
  rcases h with ⟨k, b, b2, h1, h2, hne⟩ | ⟨bk, b, b2, h1, h2, hne⟩ <;>
    exact hne (Option.some_injective _
      (Option.some_injective _ (h1.symm.trans h2)))

theorem ofilter_sublist {f : α → Option Bool} :
    ∀ {l r : List α}, ofilter f l = some r → r.Sublist l := by
  intro l
  induction l with
  | nil =>
    intro r h
    simp only [ofilter, Option.some_inj] at h
    subst h
    exact List.Sublist.refl []
  | cons a rest ih =>
    intro r h
    simp only [ofilter, Option.bind_eq_bind, Option.bind_eq_some] at h
    rcases h with ⟨b, _, rs, hrs, he⟩
    cases b with
    | true =>
      simp only [if_true] at he
      injection he with he2
      subst he2
      exact List.Sublist.cons₂ a (ih hrs)
    | false =>
      simp only [Bool.false_eq_true, if_false] at he
      injection he with he2
      subst he2
      exact List.Sublist.cons a (ih hrs)

theorem le_foldr_max {a : Nat} : ∀ {l : List Nat}, a ∈ l → a ≤ l.foldr max 0 := by
  intro l
  induction l with
  | nil => intro h; simp at h
  | cons x rest ih =>
    intro h
    rcases List.mem_cons.mp h with h | h
    · rw [h]
      exact le_max_left _ _
    · exact le_trans (ih h) (le_max_right _ _)

theorem atomKey_le_maxKey {g : MGraph} {k : Nat} (h : k ∈ atomKeys g) :
    k ≤ maxKey g := by
  unfold maxKey
  unfold atomKeys at h
  exact le_foldr_max (List.mem_append_left _ h)

theorem bondEnd_le_maxKey {g : MGraph} {p : BKey × BondAttrs} (h : p ∈ g.bnds) :
    p.1.1 ≤ maxKey g ∧ p.1.2 ≤ maxKey g := by
  unfold maxKey
  have hm : max p.1.1 p.1.2 ∈
      (g.atms.map Prod.fst) ++ (g.bnds.map (fun p => max p.1.1 p.1.2)) :=
    List.mem_append_right _ (List.mem_map.mpr ⟨p, h, rfl⟩)
  have h2 := le_foldr_max hm
  exact ⟨le_trans (le_max_left _ _) h2, le_trans (le_max_right _ _) h2⟩

theorem addHyd_atoms_mem :
    ∀ (l : List (Nat × AtomAttrs)) (c : Nat) (p : Nat × AtomAttrs),
      p ∈ (addHyd c l).1 → c ≤ p.1 ∧ p.2 = AtomAttrs.mk "H" 0 none := by
  intro l
  induction l with
  | nil => intro c p h; simp [addHyd] at h
  | cons q rest ih =>
    intro c p h
    simp only [addHyd] at h
    rcases List.mem_append.mp h with h | h
    · rcases List.mem_map.mp h with ⟨i, _, he⟩
      subst he
      exact ⟨Nat.le_add_right c i, rfl⟩
    · have h2 := ih (c + q.2.hyd) p h
      exact ⟨le_trans (Nat.le_add_right c q.2.hyd) h2.1, h2.2⟩

theorem addHyd_bnds_mem :
    ∀ (l : List (Nat × AtomAttrs)) (c : Nat) (q : BKey × BondAttrs),
      q ∈ (addHyd c l).2 →
        c ≤ q.1.2 ∧ q.1.1 ∈ l.map Prod.fst ∧ q.2 = BondAttrs.mk 1 none := by
  intro l
  induction l with
  | nil => intro c q h; simp [addHyd] at h
  | cons p rest ih =>
    intro c q h
    simp only [addHyd] at h
    rcases List.mem_append.mp h with h | h
    · rcases List.mem_map.mp h with ⟨i, _, he⟩
      subst he
      exact ⟨Nat.le_add_right c i,
        List.mem_map.mpr ⟨p, List.mem_cons_self p rest, rfl⟩, rfl⟩
    · have h2 := ih (c + p.2.hyd) q h
      refine ⟨le_trans (Nat.le_add_right c p.2.hyd) h2.1, ?_, h2.2.2⟩
      rcases List.mem_map.mp h2.2.1 with ⟨r, hr, hre⟩
      exact List.mem_map.mpr ⟨r, List.mem_cons_of_mem p hr, hre⟩

theorem addHyd_snd_eq_fst :
    ∀ (l : List (Nat × AtomAttrs)) (c : Nat),
      (addHyd c l).2.map (fun q => q.1.2) = (addHyd c l).1.map Prod.fst := by
  intro l
  induction l with
  | nil => intro c; rfl
  | cons p rest ih =>
    intro c
    simp only [addHyd, List.map_append, List.map_map]
    rw [ih]
    congr 1

theorem addHyd_fst_nodup :
    ∀ (l : List (Nat × AtomAttrs)) (c : Nat),
      ((addHyd c l).1.map Prod.fst).Nodup := by
  intro l
  induction l with
  | nil => intro c; exact List.nodup_nil
  | cons q rest ih =>
    intro c
    simp only [addHyd, List.map_append, List.map_map]
    rw [List.nodup_append]
    refine ⟨?_, ih (c + q.2.hyd), ?_⟩
    · refine List.Nodup.map ?_ (List.nodup_range _)
      intro x y hxy
      have h2 : c + x = c + y := hxy
      omega
    · intro k hk hk2
      rcases List.mem_map.mp hk with ⟨i, hi, he⟩
      have h5 : c + i = k := he
      rcases List.mem_map.mp hk2 with ⟨p, hp, hpe⟩
      have h3 := (addHyd_atoms_mem rest (c + q.2.hyd) p hp).1
      rw [hpe] at h3
      have h4 : i < q.2.hyd := List.mem_range.mp hi
      omega

theorem maxKey_wb (g : MGraph) : maxKey (without_bond_orders g) = maxKey g := by
  unfold maxKey without_bond_orders
  rw [List.map_map]
  rfl

theorem atms_g2 (g : MGraph) :
    (explicitG (without_bond_orders g)).atms =
      g.atms.map (fun p => (p.1, { p.2 with hyd := 0 })) ++
        (addHyd (maxKey g + 1) g.atms).1 := by
  simp only [explicitG]
  rw [maxKey_wb]
  exact rfl

theorem bnds_g2 (g : MGraph) :
    (explicitG (without_bond_orders g)).bnds =
      g.bnds.map (fun p => (p.1, { p.2 with ord := 1 })) ++
        (addHyd (maxKey g + 1) g.atms).2 := by
  simp only [explicitG]
  rw [maxKey_wb]
  exact rfl

theorem fst_hyd0 (g : MGraph) :
    (g.atms.map (fun p => (p.1, { p.2 with hyd := 0 }))).map Prod.fst =
      atomKeys g := by
  rw [List.map_map]
  rfl

theorem atomKeys_g2 (g : MGraph) :
    atomKeys (explicitG (without_bond_orders g)) =
      atomKeys g ++ (addHyd (maxKey g + 1) g.atms).1.map Prod.fst := by
  unfold atomKeys
  rw [atms_g2 g, List.map_append, List.map_map]
  rfl

theorem bondKeys_g2 (g : MGraph) :
    bondKeys (explicitG (without_bond_orders g)) =
      bondKeys g ++ (addHyd (maxKey g + 1) g.atms).2.map Prod.fst := by
  unfold bondKeys
  rw [bnds_g2 g, List.map_append, List.map_map]
  rfl

theorem sum_ones {f : α → Nat} :
    ∀ {l : List α}, (∀ x ∈ l, f x = 1) → (l.map f).sum = l.length := by
  intro l
  induction l with
  | nil => intro _; rfl
  | cons a rest ih =>
    intro h
    rw [List.map_cons, List.sum_cons, h a (List.mem_cons_self a rest),
      ih (fun x hx => h x (List.mem_cons_of_mem a hx)), List.length_cons]
    omega

theorem length_filter_eq_count {f : α → Nat} (k : Nat) :
    ∀ l : List α,
      (l.filter (fun x => decide (f x = k))).length = (l.map f).count k := by
  intro l
  induction l with
  | nil => rfl
  | cons a rest ih =>
    rw [List.map_cons, List.filter_cons]
    by_cases h : f a = k
    · have h2 : (f a :: rest.map f).count k = (rest.map f).count k + 1 := by
        rw [h]
        exact List.count_cons_self k _
      rw [if_pos (by simpa using h), List.length_cons, ih, h2]
    · have h2 : (f a :: rest.map f).count k = (rest.map f).count k :=
        List.count_cons_of_ne (fun hc => h hc.symm) _
      rw [if_neg (by simpa using h), ih, h2]

theorem fresh_valence (g : MGraph) (k : Nat)
    (hk : k ∈ ((addHyd (maxKey g + 1) g.atms).1.map Prod.fst)) :
    atom_bond_valences (explicitG (without_bond_orders g)) k = 1 := by
  have hkge : maxKey g + 1 ≤ k := by
    rcases List.mem_map.mp hk with ⟨p, hp, he⟩
    have h2 := (addHyd_atoms_mem g.atms (maxKey g + 1) p hp).1
    rw [he] at h2
    exact h2
  have hold : (g.bnds.map (fun p => (p.1, { p.2 with ord := 1 }))).filter
      (fun p => decide (p.1.1 = k ∨ p.1.2 = k)) = [] := by
    rw [List.filter_eq_nil_iff]
    intro p hp
    rcases List.mem_map.mp hp with ⟨q, hq, he⟩
    obtain ⟨hb1, hb2⟩ := bondEnd_le_maxKey hq
    have h1 : p.1 = q.1 := by rw [← he]
    simp only [h1, decide_eq_true_eq]
    intro hor
    rcases hor with h2 | h2 <;> omega
  have hfil : ((addHyd (maxKey g + 1) g.atms).2.filter
      (fun p => decide (p.1.1 = k ∨ p.1.2 = k))) =
      ((addHyd (maxKey g + 1) g.atms).2.filter
        (fun p => decide (p.1.2 = k))) := by
    refine List.filter_congr ?_
    intro p hp
    obtain ⟨hge, hmem, _⟩ := addHyd_bnds_mem g.atms (maxKey g + 1) p hp
    have hle : p.1.1 ≤ maxKey g := atomKey_le_maxKey hmem
    show decide (p.1.1 = k ∨ p.1.2 = k) = decide (p.1.2 = k)
    rw [decide_eq_decide]
    constructor
    · rintro (h2 | h2)
      · omega
      · exact h2
    · intro h2
      exact Or.inr h2
  have hsum : (((addHyd (maxKey g + 1) g.atms).2.filter
      (fun p => decide (p.1.2 = k))).map (fun p => p.2.ord)).sum =
      ((addHyd (maxKey g + 1) g.atms).2.filter
        (fun p => decide (p.1.2 = k))).length := by
    refine sum_ones ?_
    intro p hp
    have hp2 := List.mem_of_mem_filter hp
    obtain ⟨_, _, hattr⟩ := addHyd_bnds_mem g.atms (maxKey g + 1) p hp2
    show p.2.ord = 1
    rw [hattr]
  have hlen : ((addHyd (maxKey g + 1) g.atms).2.filter
      (fun p => decide (p.1.2 = k))).length = 1 := by
    rw [length_filter_eq_count k _, addHyd_snd_eq_fst]
    exact List.count_eq_one_of_mem (addHyd_fst_nodup g.atms (maxKey g + 1)) hk
  have hnotin : k ∉ (g.atms.map
      (fun p => (p.1, { p.2 with hyd := 0 }))).map Prod.fst := by
    rw [fst_hyd0]
    intro hcon
    have h2 := atomKey_le_maxKey hcon
    omega
  have hattr : atomAttr (explicitG (without_bond_orders g)) k =
      some (AtomAttrs.mk "H" 0 none) := by
    unfold atomAttr
    rw [atms_g2 g, lookup_append_right k _ _ hnotin]
    have hs : (((addHyd (maxKey g + 1) g.atms).1.lookup k)).isSome = true := by
      rw [lookup_isSome_iff]
      exact hk
    cases hl : (addHyd (maxKey g + 1) g.atms).1.lookup k with
    | none => rw [hl] at hs; simp at hs
    | some a =>
      have h2 := addHyd_atoms_mem g.atms (maxKey g + 1) (k, a)
        (mem_of_lookup_eq_some hl)
      have h3 : a = AtomAttrs.mk "H" 0 none := h2.2
      rw [h3]
  unfold atom_bond_valences
  rw [bnds_g2 g, List.filter_append, hold, List.nil_append, hfil, hsum, hlen,
    hattr]
  rfl

theorem sak_sub {g : MGraph} {ks : List Nat} (hwf : WF g)
    (h : stereogenic_atom_keys g = some ks) :
    ks.Nodup ∧ ∀ k ∈ ks, atomParity g k = some none := by
  simp only [stereogenic_atom_keys] at h
  have hnd2 : (atomKeys (explicitG (without_bond_orders g))).Nodup := by
    rw [atomKeys_g2]
    refine List.Nodup.append hwf.1 (addHyd_fst_nodup g.atms (maxKey g + 1)) ?_
    intro k hk1 hk2
    have h1 := atomKey_le_maxKey hk1
    rcases List.mem_map.mp hk2 with ⟨p, hp, he⟩
    have h2 := (addHyd_atoms_mem g.atms (maxKey g + 1) p hp).1
    rw [he] at h2
    omega
  constructor
  · have hsub := ofilter_sublist h
    have hsub2 : ks.Sublist (atomKeys (explicitG (without_bond_orders g))) :=
      hsub.trans ((List.filter_sublist _).trans
        (List.Sublist.map Prod.fst (List.filter_sublist _)))
    exact List.Nodup.sublist hsub2 hnd2
  · intro k hk
    obtain ⟨hkc, _⟩ := (ofilter_mem h k).mp hk
    rw [List.mem_filter] at hkc
    obtain ⟨hkm, hnst⟩ := hkc
    have hnst2 : k ∉ atom_stereo_keys (explicitG (without_bond_orders g)) :=
      of_decide_eq_true hnst
    rcases List.mem_map.mp hkm with ⟨p, hpf, hpk⟩
    rw [List.mem_filter] at hpf
    obtain ⟨hpg2, hval⟩ := hpf
    have hval4 : atom_bond_valences (explicitG (without_bond_orders g)) p.1 = 4 :=
      of_decide_eq_true hval
    rw [atms_g2] at hpg2
    rcases List.mem_append.mp hpg2 with hpo | hpf2
    · rcases List.mem_map.mp hpo with ⟨q, hq, hqe⟩
      have hq1 : q.1 = k := by
        rw [← hpk, ← hqe]
      have hlk : g.atms.lookup k = some q.2 := by
        refine lookup_eq_some_of_mem hwf.1 ?_
        have h3 : (k, q.2) = q := by
          rw [← hq1]
        rw [h3]
        exact hq
      have hpar : atomParity g k = some q.2.par := by
        unfold atomParity atomAttr
        rw [hlk]
        rfl
      by_cases hp2 : q.2.par = none
      · rw [hpar, hp2]
      · exfalso
        apply hnst2
        unfold atom_stereo_keys
        refine List.mem_map.mpr ⟨(k, { q.2 with hyd := 0 }), ?_, rfl⟩
        rw [List.mem_filter]
        constructor
        · rw [atms_g2]
          refine List.mem_append_left _ (List.mem_map.mpr ⟨q, hq, ?_⟩)
          rw [hq1]
        · simpa using hp2
    · exfalso
      have h1 : atom_bond_valences (explicitG (without_bond_orders g)) p.1 = 1 :=
        fresh_valence g p.1 (List.mem_map.mpr ⟨p, hpf2, rfl⟩)
      rw [hval4] at h1
      exact absurd h1 (by decide)

theorem fresh_nbr (g : MGraph) {q : BKey × BondAttrs}
    (hq : q ∈ (addHyd (maxKey g + 1) g.atms).2) :
    ∀ x ∈ atom_neighbor_keys (explicitG (without_bond_orders g)) q.1.2,
      x = q.1.1 := by
  intro x hx
  have hkge : maxKey g + 1 ≤ q.1.2 :=
    (addHyd_bnds_mem g.atms (maxKey g + 1) q hq).1
  rcases mem_neighbor_iff.mp hx with ⟨p, hp, hcase⟩
  rw [bnds_g2] at hp
  rcases List.mem_append.mp hp with hpo | hpf
  · rcases List.mem_map.mp hpo with ⟨r, hr, hre⟩
    obtain ⟨hb1, hb2⟩ := bondEnd_le_maxKey hr
    have h1 : p.1 = r.1 := by rw [← hre]
    rcases hcase with ⟨h2, _⟩ | ⟨_, h2, _⟩ <;> (rw [h1] at h2; omega)
  · obtain ⟨hge, hmem, _⟩ := addHyd_bnds_mem g.atms (maxKey g + 1) p hpf
    have hle : p.1.1 ≤ maxKey g := atomKey_le_maxKey hmem
    rcases hcase with ⟨h2, _⟩ | ⟨_, h2, hj⟩
    · omega
    · have hnd : ((addHyd (maxKey g + 1) g.atms).2.map
          (fun r => r.1.2)).Nodup := by
        rw [addHyd_snd_eq_fst]
        exact addHyd_fst_nodup g.atms (maxKey g + 1)
      have hpq : p = q := List.inj_on_of_nodup_map hnd hpf hq h2
      rw [hj, hpq]

theorem fresh_not_ste (g : MGraph) {q : BKey × BondAttrs}
    (hq : q ∈ (addHyd (maxKey g + 1) g.atms).2) :
    isSteBond (explicitG (without_bond_orders g)) q.1 ≠ some true := by
  have hnil : (atom_neighbor_keys (explicitG (without_bond_orders g))
      q.1.2).filter (fun x => decide (x ≠ q.1.1)) = [] := by
    rw [List.filter_eq_nil_iff]
    intro x hx
    have h2 := fresh_nbr g hq x hx
    simp [h2]
  have hsym : isSymOnBond (explicitG (without_bond_orders g)) q.1.2 q.1.1 =
      some true := by
    unfold isSymOnBond
    rw [hnil]
  unfold isSteBond
  cases h1 : isSymOnBond (explicitG (without_bond_orders g)) q.1.1 q.1.2 with
  | none => simp
  | some s1 =>
    cases s1 with
    | true => simp
    | false => simp [hsym]

theorem sbk_sub {O : ResOracle} {g : MGraph} {ks : List BKey} (hwf : WF g)
    (h : stereogenic_bond_keys O g = some ks) :
    ks.Nodup ∧ ∀ bk ∈ ks, bondParity g bk = some none := by
  simp only [stereogenic_bond_keys] at h
  have hnd2 : (bondKeys (explicitG (without_bond_orders g))).Nodup := by
    rw [bondKeys_g2]
    refine List.Nodup.append hwf.2.1 ?_ ?_
    · have hmm : ((addHyd (maxKey g + 1) g.atms).2.map Prod.fst).map Prod.snd =
          (addHyd (maxKey g + 1) g.atms).2.map (fun r => r.1.2) := by
        rw [List.map_map]
        rfl
      refine List.Nodup.of_map Prod.snd ?_
      rw [hmm, addHyd_snd_eq_fst]
      exact addHyd_fst_nodup g.atms (maxKey g + 1)
    · intro bk hk1 hk2
      rcases List.mem_map.mp hk1 with ⟨p, hp, he⟩
      obtain ⟨_, hb2⟩ := bondEnd_le_maxKey hp
      rcases List.mem_map.mp hk2 with ⟨r, hr, hre⟩
      have hge := (addHyd_bnds_mem g.atms (maxKey g + 1) r hr).1
      rw [he] at hb2
      rw [hre] at hge
      omega
  constructor
  · have hsub := ofilter_sublist h
    have hsub2 : ks.Sublist (bondKeys (explicitG (without_bond_orders g))) := by
      refine hsub.trans ((List.filter_sublist _).trans ?_)
      unfold bond_candidate_keys
      exact (List.filter_sublist _).trans ((List.filter_sublist _).trans
        (List.filter_sublist _))
    exact List.Nodup.sublist hsub2 hnd2
  · intro bk hk
    obtain ⟨hkc, hste⟩ := (ofilter_mem h bk).mp hk
    rw [List.mem_filter] at hkc
    obtain ⟨hkcand, _⟩ := hkc
    unfold bond_candidate_keys at hkcand
    rw [List.mem_filter] at hkcand
    obtain ⟨hkcand2, hnst⟩ := hkcand
    have hnst2 : bk ∉ bond_stereo_keys (explicitG (without_bond_orders g)) :=
      of_decide_eq_true hnst
    rw [List.mem_filter] at hkcand2
    obtain ⟨hkcand3, _⟩ := hkcand2
    rw [List.mem_filter] at hkcand3
    obtain ⟨hkb, _⟩ := hkcand3
    rw [bondKeys_g2] at hkb
    rcases List.mem_append.mp hkb with hkb | hkb
    · rcases List.mem_map.mp hkb with ⟨p, hp, hpe⟩
      have hlk : g.bnds.lookup bk = some p.2 := by
        refine lookup_eq_some_of_mem hwf.2.1 ?_
        have h3 : (bk, p.2) = p := by rw [← hpe]
        rw [h3]
        exact hp
      have hpar : bondParity g bk = some p.2.par := by
        unfold bondParity bondAttr
        rw [hlk]
        rfl
      by_cases hp2 : p.2.par = none
      · rw [hpar, hp2]
      · exfalso
        apply hnst2
        unfold bond_stereo_keys
        refine List.mem_map.mpr ⟨(bk, { p.2 with ord := 1 }), ?_, rfl⟩
        rw [List.mem_filter]
        constructor
        · rw [bnds_g2]
          refine List.mem_append_left _ (List.mem_map.mpr ⟨p, hp, ?_⟩)
          rw [hpe]
        · simpa using hp2
    · exfalso
      rcases List.mem_map.mp hkb with ⟨r, hr, hre⟩
      have h4 := fresh_not_ste g hr
      rw [hre] at h4
      exact h4 hste

theorem WF_set_atom {g : MGraph} (hwf : WF g) (d : List (Nat × Bool)) :
    WF (set_atom_stereo_parities g d) := by
  obtain ⟨h1, h2, h3⟩ := hwf
  refine ⟨?_, h2, ?_⟩
  · rw [atomKeys_set_atom]
    exact h1
  · intro p hp
    have hp2 : p ∈ g.bnds := hp
    have h4 := h3 p hp2
    rw [atomKeys_set_atom]
    exact h4

theorem WF_set_bond {g : MGraph} (hwf : WF g) (d : List (BKey × Bool)) :
    WF (set_bond_stereo_parities g d) := by
  obtain ⟨h1, h2, h3⟩ := hwf
  refine ⟨h1, ?_, ?_⟩
  · rw [bondKeys_set_bond]
    exact h2
  · intro p hp
    rcases List.mem_map.mp hp with ⟨p0, hp0, he⟩
    have h4 := h3 p0 hp0
    have hk : p.1 = p0.1 := by
      rw [← he]
      cases d.lookup p0.1 <;> rfl
    rw [hk]
    exact h4

theorem WF_wsp {g : MGraph} (hwf : WF g) : WF (without_stereo_parities g) := by
  obtain ⟨h1, h2, h3⟩ := hwf
  have ha : atomKeys (without_stereo_parities g) = atomKeys g := by
    unfold atomKeys without_stereo_parities
    rw [List.map_map]
    rfl
  have hb : bondKeys (without_stereo_parities g) = bondKeys g := by
    unfold bondKeys without_stereo_parities
    rw [List.map_map]
    rfl
  refine ⟨ha ▸ h1, hb ▸ h2, ?_⟩
  intro p hp
  rcases List.mem_map.mp hp with ⟨p0, hp0, he⟩
  have h4 := h3 p0 hp0
  have hk : p.1 = p0.1 := by rw [← he]
  rw [hk, ha]
  exact h4

theorem conflict_of_combo_ne_atom {g : MGraph} {ks : List Nat}
    {v v2 : List Bool} (hwf : WF g) (h : stereogenic_atom_keys g = some ks)
    (hv : v.length = ks.length) (hv2 : v2.length = ks.length) (hne : v ≠ v2) :
    Conflict (set_atom_stereo_parities g (ks.zip v))
      (set_atom_stereo_parities g (ks.zip v2)) := by
  obtain ⟨hnd, hpar⟩ := sak_sub hwf h
  rcases zip_lookup_conflict hnd hv hv2 hne with ⟨k, b, b2, hl1, hl2, hbne, hkm⟩
  refine Or.inl ⟨k, b, b2, ?_, ?_, hbne⟩
  · rw [atomParity_set_atom, hpar k hkm, hl1]
    rfl
  · rw [atomParity_set_atom, hpar k hkm, hl2]
    rfl

theorem conflict_of_combo_ne_bond {O : ResOracle} {g : MGraph} {ks : List BKey}
    {v v2 : List Bool} (hwf : WF g) (h : stereogenic_bond_keys O g = some ks)
    (hv : v.length = ks.length) (hv2 : v2.length = ks.length) (hne : v ≠ v2) :
    Conflict (set_bond_stereo_parities g (ks.zip v))
      (set_bond_stereo_parities g (ks.zip v2)) := by
  obtain ⟨hnd, hpar⟩ := sbk_sub hwf h
  rcases zip_lookup_conflict hnd hv hv2 hne with ⟨bk, b, b2, hl1, hl2, hbne, hkm⟩
  refine Or.inr ⟨bk, b, b2, ?_, ?_, hbne⟩
  · rw [bondParity_set_bond, hpar bk hkm, hl1]
    rfl
  · rw [bondParity_set_bond, hpar bk hkm, hl2]
    rfl

theorem expandAtom_parts {g : MGraph} {bl : List MGraph}
    (h : expandAtomStereo g = some bl) :
    ∃ ks, stereogenic_atom_keys g = some ks ∧
      bl = (boolCombos ks.length).map
        (fun vs => set_atom_stereo_parities g (ks.zip vs)) := by
  unfold expandAtomStereo at h
  cases hks : stereogenic_atom_keys g with
  | none => rw [hks] at h; simp at h
  | some ks =>
    rw [hks] at h
    simp only [Option.bind_eq_bind, Option.some_bind, Option.some_inj] at h
    exact ⟨ks, rfl, h.symm⟩

theorem expandBond_parts {O : ResOracle} {g : MGraph} {bl : List MGraph}
    (h : expandBondStereo O g = some bl) :
    ∃ ks, stereogenic_bond_keys O g = some ks ∧
      bl = (boolCombos ks.length).map
        (fun vs => set_bond_stereo_parities g (ks.zip vs)) := by
  unfold expandBondStereo at h
  cases hks : stereogenic_bond_keys O g with
  | none => rw [hks] at h; simp at h
  | some ks =>
    rw [hks] at h
    simp only [Option.bind_eq_bind, Option.some_bind, Option.some_inj] at h
    exact ⟨ks, rfl, h.symm⟩

theorem expandAtom_wf {g : MGraph} {bl : List MGraph} (hwf : WF g)
    (h : expandAtomStereo g = some bl) : ∀ x ∈ bl, WF x := by
  rcases expandAtom_parts h with ⟨ks, _, he⟩
  subst he
  intro x hx
  rcases List.mem_map.mp hx with ⟨v, _, he2⟩
  rw [← he2]
  exact WF_set_atom hwf _

theorem expandBond_wf {O : ResOracle} {g : MGraph} {bl : List MGraph}
    (hwf : WF g) (h : expandBondStereo O g = some bl) : ∀ x ∈ bl, WF x := by
  rcases expandBond_parts h with ⟨ks, _, he⟩
  subst he
  intro x hx
  rcases List.mem_map.mp hx with ⟨v, _, he2⟩
  rw [← he2]
  exact WF_set_bond hwf _

theorem expandAtom_block_pairwise {g : MGraph} {bl : List MGraph} (hwf : WF g)
    (h : expandAtomStereo g = some bl) : bl.Pairwise Conflict := by
  rcases expandAtom_parts h with ⟨ks, hks, he⟩
  subst he
  rw [List.pairwise_map]
  refine List.Pairwise.imp_of_mem ?_ (boolCombos_nodup ks.length)
  intro v v2 hv hv2 hne
  exact conflict_of_combo_ne_atom hwf hks
    (boolCombos_mem_length ks.length v hv)
    (boolCombos_mem_length ks.length v2 hv2) hne

theorem expandBond_block_pairwise {O : ResOracle} {g : MGraph}
    {bl : List MGraph} (hwf : WF g)
    (h : expandBondStereo O g = some bl) : bl.Pairwise Conflict := by
  rcases expandBond_parts h with ⟨ks, hks, he⟩
  subst he
  rw [List.pairwise_map]
  refine List.Pairwise.imp_of_mem ?_ (boolCombos_nodup ks.length)
  intro v v2 hv hv2 hne
  exact conflict_of_combo_ne_bond hwf hks
    (boolCombos_mem_length ks.length v hv)
    (boolCombos_mem_length ks.length v2 hv2) hne

theorem expandAtom_cross {x y : MGraph} {bl bl2 : List MGraph}
    (hwx : WF x) (hwy : WF y) (hc : Conflict x y)
    (hx : expandAtomStereo x = some bl) (hy : expandAtomStereo y = some bl2) :
    ∀ a ∈ bl, ∀ b ∈ bl2, Conflict a b := by
  rcases expandAtom_parts hx with ⟨ksx, hksx, hex⟩
  rcases expandAtom_parts hy with ⟨ksy, hksy, hey⟩
  subst hex
  subst hey
  intro a ha b hb
  rcases List.mem_map.mp ha with ⟨v, _, hva⟩
  rcases List.mem_map.mp hb with ⟨w, _, hwb⟩
  rw [← hva, ← hwb]
  rcases hc with ⟨k, c, c2, h1, h2, hcne⟩ | ⟨bk, c, c2, h1, h2, hcne⟩
  · have hkx : k ∉ ksx := by
      intro hm
      have h5 := (sak_sub hwx hksx).2 k hm
      rw [h1] at h5
      simp at h5
    have hky : k ∉ ksy := by
      intro hm
      have h5 := (sak_sub hwy hksy).2 k hm
      rw [h2] at h5
      simp at h5
    refine Or.inl ⟨k, c, c2, ?_, ?_, hcne⟩
    · rw [atomParity_set_atom, h1, lookup_zip_none hkx]
      rfl
    · rw [atomParity_set_atom, h2, lookup_zip_none hky]
      rfl
  · exact Or.inr ⟨bk, c, c2, (bondParity_set_atom _ _ _).trans h1,
      (bondParity_set_atom _ _ _).trans h2, hcne⟩

theorem expandBond_cross {O : ResOracle} {x y : MGraph} {bl bl2 : List MGraph}
    (hwx : WF x) (hwy : WF y) (hc : Conflict x y)
    (hx : expandBondStereo O x = some bl)
    (hy : expandBondStereo O y = some bl2) :
    ∀ a ∈ bl, ∀ b ∈ bl2, Conflict a b := by
  rcases expandBond_parts hx with ⟨ksx, hksx, hex⟩
  rcases expandBond_parts hy with ⟨ksy, hksy, hey⟩
  subst hex
  subst hey
  intro a ha b hb
  rcases List.mem_map.mp ha with ⟨v, _, hva⟩
  rcases List.mem_map.mp hb with ⟨w, _, hwb⟩
  rw [← hva, ← hwb]
  rcases hc with ⟨k, c, c2, h1, h2, hcne⟩ | ⟨bk, c, c2, h1, h2, hcne⟩
  · exact Or.inl ⟨k, c, c2, (atomParity_set_bond _ _ _).trans h1,
      (atomParity_set_bond _ _ _).trans h2, hcne⟩
  · have hkx : bk ∉ ksx := by
      intro hm
      have h5 := (sbk_sub hwx hksx).2 bk hm
      rw [h1] at h5
      simp at h5
    have hky : bk ∉ ksy := by
      intro hm
      have h5 := (sbk_sub hwy hksy).2 bk hm
      rw [h2] at h5
      simp at h5
    refine Or.inr ⟨bk, c, c2, ?_, ?_, hcne⟩
    · rw [bondParity_set_bond, h1, lookup_zip_none hkx]
      rfl
    · rw [bondParity_set_bond, h2, lookup_zip_none hky]
      rfl

theorem oflat_conflict {f : MGraph → Option (List MGraph)}
    (hblock : ∀ x, WF x → ∀ bl, f x = some bl →
      bl.Pairwise Conflict ∧ ∀ a ∈ bl, WF a)
    (hcross : ∀ x y, WF x → WF y → Conflict x y → ∀ bl bl2,
      f x = some bl → f y = some bl2 → ∀ a ∈ bl, ∀ b ∈ bl2, Conflict a b) :
    ∀ {l l' : List MGraph}, oflat f l = some l' →
      (∀ x ∈ l, WF x) → l.Pairwise Conflict →
      (∀ x ∈ l', WF x) ∧ l'.Pairwise Conflict := by
  intro l
  induction l with
  | nil =>
    intro l' h hw hp
    simp only [oflat, Option.some_inj] at h
    subst h
    exact ⟨by intro x hx; simp at hx, List.Pairwise.nil⟩
  | cons a rest ih =>
    intro l' h hw hp
    simp only [oflat, Option.bind_eq_bind, Option.bind_eq_some] at h
    rcases h with ⟨bl, hbl, rest', hrest', he⟩
    injection he with he
    subst he
    have hwa : WF a := hw a (List.mem_cons_self a rest)
    have hwrest : ∀ x ∈ rest, WF x := fun x hx =>
      hw x (List.mem_cons_of_mem a hx)
    obtain ⟨hrel, hprest⟩ := List.pairwise_cons.mp hp
    obtain ⟨hwrest', hprest'⟩ := ih hrest' hwrest hprest
    obtain ⟨hpbl, hwbl⟩ := hblock a hwa bl hbl
    refine ⟨?_, ?_⟩
    · intro x hx
      rcases List.mem_append.mp hx with hx | hx
      · exact hwbl x hx
      · exact hwrest' x hx
    · rw [List.pairwise_append]
      refine ⟨hpbl, hprest', ?_⟩
      intro p hp1 q hq1
      rcases (oflat_mem hrest' q).mp hq1 with ⟨y, hy, bly, hbly, hqy⟩
      exact hcross a y hwa (hwrest y hy) (hrel y hy) bl bly hbl hbly
        p hp1 q hqy

theorem expandAll_conflict {O : ResOracle} {l l' : List MGraph}
    (h : expandAll O l = some l') (hw : ∀ x ∈ l, WF x)
    (hp : l.Pairwise Conflict) :
    (∀ x ∈ l', WF x) ∧ l'.Pairwise Conflict := by
  unfold expandAll at h
  cases h1 : oflat expandAtomStereo l with
  | none => rw [h1] at h; simp at h
  | some l1 =>
    rw [h1] at h
    simp only [Option.bind_eq_bind, Option.some_bind] at h
    obtain ⟨hw1, hp1⟩ := oflat_conflict
      (fun x hwx bl hbl =>
        ⟨expandAtom_block_pairwise hwx hbl, expandAtom_wf hwx hbl⟩)
      (fun x y hwx hwy hc bl bl2 hx hy =>
        expandAtom_cross hwx hwy hc hx hy) h1 hw hp
    exact oflat_conflict
      (fun x hwx bl hbl =>
        ⟨expandBond_block_pairwise hwx hbl, expandBond_wf hwx hbl⟩)
      (fun x y hwx hwy hc bl bl2 hx hy =>
        expandBond_cross hwx hwy hc hx hy) h hw1 hp1

theorem stereomersLoop_conflict {O : ResOracle} :
    ∀ {fuel : Nat} {l out : List MGraph},
      stereomersLoop O fuel l = some out →
      (∀ x ∈ l, WF x) → l.Pairwise Conflict →
      (∀ x ∈ out, WF x) ∧ out.Pairwise Conflict := by
  intro fuel
  induction fuel with
  | zero => intro l out h _ _; simp [stereomersLoop] at h
  | succ n ih =>
    intro l out h hw hp
    simp only [stereomersLoop, Option.bind_eq_bind, Option.bind_eq_some] at h
    rcases h with ⟨l2, hl2, hrest⟩
    by_cases he : l2 = l
    · rw [if_pos he] at hrest
      injection hrest with hrest
      subst hrest
      exact ⟨hw, hp⟩
    · rw [if_neg he] at hrest
      obtain ⟨hw2, hp2⟩ := expandAll_conflict hl2 hw hp
      exact ih hrest hw2 hp2

/-- C4: on every well-formed graph on which it succeeds, stereomers returns a
list of graphs with no duplicates, sorted in ascending canonical (frozen)
order. -/
theorem stereomers_sorted_nodup {O : ResOracle} {g : MGraph}
    {L : List MGraph} (hwf : WF g) (h : stereomers O g = some L) :
    L.Nodup ∧ L.Sorted frozenLe := by
  simp only [stereomers, Option.bind_eq_bind, Option.bind_eq_some] at h
  rcases h with ⟨res, hres, he⟩
  injection he with he
  subst he
  have hstart : WF (without_stereo_parities g) := WF_wsp hwf
  obtain ⟨_, hpair⟩ := stereomersLoop_conflict hres
    (by
      intro x hx
      rw [List.mem_singleton] at hx
      rw [hx]
      exact hstart)
    (List.pairwise_singleton _ _)
  have hnd : res.Nodup := List.Pairwise.imp conflict_ne hpair
  unfold sortByFrozen
  constructor
  · exact ((List.perm_insertionSort frozenLe res).nodup_iff).mpr hnd
  · exact List.sorted_insertionSort frozenLe res

/-- The two stereomers of the chiral witness graph, in canonical order. -/
def gChiralWStereomers : List MGraph :=
  [MGraph.mk
      [(0, AtomAttrs.mk "C" 0 (some false)), (1, AtomAttrs.mk "F" 0 none),
        (2, AtomAttrs.mk "Cl" 0 none), (3, AtomAttrs.mk "Br" 0 none),
        (4, AtomAttrs.mk "I" 0 none)]
      [((0, 1), BondAttrs.mk 1 none), ((0, 2), BondAttrs.mk 1 none),
        ((0, 3), BondAttrs.mk 1 none), ((0, 4), BondAttrs.mk 1 none)],
    MGraph.mk
      [(0, AtomAttrs.mk "C" 0 (some true)), (1, AtomAttrs.mk "F" 0 none),
        (2, AtomAttrs.mk "Cl" 0 none), (3, AtomAttrs.mk "Br" 0 none),
        (4, AtomAttrs.mk "I" 0 none)]
      [((0, 1), BondAttrs.mk 1 none), ((0, 2), BondAttrs.mk 1 none),
        ((0, 3), BondAttrs.mk 1 none), ((0, 4), BondAttrs.mk 1 none)]]

/-- Closed instance of C4: on the chiral witness graph stereomers succeeds
and its two-element output is duplicate-free and canonically sorted. -/
theorem stereomers_sorted_nodup_witness :
    WF gChiralW ∧ stereomers oracleNone gChiralW = some gChiralWStereomers ∧
      gChiralWStereomers.Nodup ∧ gChiralWStereomers.Sorted frozenLe :=
  ⟨by decide, by decide,
    @stereomers_sorted_nodup oracleNone gChiralW gChiralWStereomers
      (by decide) (by decide)⟩
